import Mathlib

/-!
Shallow embedding of the tool-call dispatch, command-safety gate, response
interpreter and interaction logger of the tinypenguin CLI
(`cli/pkg/cli/task.go`), together with proofs about the embedded code.

Strings are modelled as Lean strings (sequences of Unicode scalar values);
Go byte-level functions (`strings.ToLower`, `strings.TrimSpace`, slicing)
are modelled on characters, which agrees with Go on the ASCII data the
program manipulates.  `encoding/json` is modelled by an executable JSON
value type, parser and struct decoders that follow Go's behaviour: compact
output with HTML escaping on marshal, whitespace-tolerant parse, raw
number literals, `null` as a field no-op, case-insensitive field matching,
unknown fields ignored, last duplicate key wins.
-/

/-! ### Character-level models of the `strings` package helpers -/

/-- Lowercase mapping of a character, as `strings.ToLower` maps the ASCII
range (the program's commands and patterns are ASCII). -/
def asciiLower (c : Char) : Char :=
  if 'A' ≤ c ∧ c ≤ 'Z' then Char.ofNat (c.toNat + 32) else c

/-- Model of `strings.ToLower` on the character list of a string. -/
def toLowerL (cs : List Char) : List Char := cs.map asciiLower

/-- Whitespace per `unicode.IsSpace`, restricted to the Latin-1 range that
`strings.TrimSpace` can meet here. -/
def goIsSpace (c : Char) : Bool :=
  c == '\x20' || c == '\x09' || c == '\x0a' || c == '\x0b' ||
  c == '\x0c' || c == '\x0d' || c == '\u0085' || c == '\u00a0'

/-- Model of `strings.TrimSpace` (drop leading and trailing whitespace). -/
def trimSpaceL (cs : List Char) : List Char :=
  ((cs.dropWhile goIsSpace).reverse.dropWhile goIsSpace).reverse

/-- Model of `strings.Trim` with an explicit cutset. -/
def trimCutsetL (cut : List Char) (cs : List Char) : List Char :=
  ((cs.dropWhile (cut.contains ·)).reverse.dropWhile (cut.contains ·)).reverse

/-- Model of `strings.Contains`: does `sub` occur inside `cs`? -/
def containsL : List Char → List Char → Bool
  | [], sub => sub.isEmpty
  | c :: t, sub => sub.isPrefixOf (c :: t) || containsL t sub

/-- Model of `strings.HasPrefix`. -/
def startsL (cs pre : List Char) : Bool := pre.isPrefixOf cs

/-- Model of `strings.Split` on a single separator character. -/
def splitOnCharL (sep : Char) : List Char → List (List Char)
  | [] => [[]]
  | c :: rest =>
    if c == sep then [] :: splitOnCharL sep rest
    else
      match splitOnCharL sep rest with
      | g :: gs => (c :: g) :: gs
      | [] => [[c]]

/-- Model of `strings.Join` on a single separator character. -/
def joinSepL (sep : Char) : List (List Char) → List Char
  | [] => []
  | [x] => x
  | x :: y :: ys => x ++ sep :: joinSepL sep (y :: ys)

/-- Model of `strings.Index` for a single character: first position, if any. -/
def firstIdxL (cs : List Char) (c : Char) : Option Nat := cs.findIdx? (· == c)

/-- Model of `strings.LastIndex` for a single character: last position, if any. -/
def lastIdxL (cs : List Char) (c : Char) : Option Nat :=
  (cs.reverse.findIdx? (· == c)).map (fun i => cs.length - 1 - i)

/-- String wrapper for `strings.ToLower`. -/
def goToLower (s : String) : String := String.mk (toLowerL s.data)

/-- String wrapper for `strings.TrimSpace`. -/
def goTrimSpace (s : String) : String := String.mk (trimSpaceL s.data)

/-- String wrapper for `strings.Contains`. -/
def goContains (s sub : String) : Bool := containsL s.data sub.data

/-- String wrapper for `strings.HasPrefix`. -/
def goStarts (s pre : String) : Bool := startsL s.data pre.data

/-! ### JSON values, as `encoding/json` builds them -/

/-- A decoded JSON value.  Numbers keep their raw literal, as Go's decoder
does until a target type is known; objects keep their members in input
order (duplicate keys resolved to the last occurrence on lookup, matching
a rebuilt `map[string]interface{}`). -/
inductive Json where
  | null
  | bool (b : Bool)
  | num (lit : String)
  | str (s : String)
  | arr (elems : List Json)
  | obj (members : List (String × Json))

/-- Lookup in a decoded object the way a Go map built from it answers:
the value of the last member with the given key. -/
def objGet (kvs : List (String × Json)) (k : String) : Option Json :=
  kvs.foldl (fun acc kv => if kv.1 == k then some kv.2 else acc) none

/-! ### The JSON scanner (model of `encoding/json` parsing) -/

/-- Token-separating whitespace accepted by the JSON scanner. -/
def isJsonWs (c : Char) : Bool := c == ' ' || c == '\t' || c == '\n' || c == '\r'

/-- Drop inter-token whitespace. -/
def wsDrop (cs : List Char) : List Char := cs.dropWhile isJsonWs

/-- Hexadecimal digit value, for `\uXXXX` escapes. -/
def hexDigitVal (c : Char) : Option Nat :=
  if '0' ≤ c ∧ c ≤ '9' then some (c.toNat - 48)
  else if 'a' ≤ c ∧ c ≤ 'f' then some (c.toNat - 97 + 10)
  else if 'A' ≤ c ∧ c ≤ 'F' then some (c.toNat - 65 + 10)
  else none

/-- Value of four hex digits. -/
def hexQuad (a b c d : Char) : Option Nat :=
  match hexDigitVal a, hexDigitVal b, hexDigitVal c, hexDigitVal d with
  | some va, some vb, some vc, some vd => some (((va * 16 + vb) * 16 + vc) * 16 + vd)
  | _, _, _, _ => none

/-- Decimal digit test. -/
def isDigitCh (c : Char) : Bool := '0' ≤ c && c ≤ '9'

/-- Single-character escapes of a JSON string (`\u` is handled
separately, so it maps to an error here, as Go errors on a truncated
`\uXXXX`). -/
def escChar (e : Char) : Option Char :=
  if e == '"' then some '"'
  else if e == '\\' then some '\\'
  else if e == '/' then some '/'
  else if e == 'b' then some '\x08'
  else if e == 'f' then some '\x0c'
  else if e == 'n' then some '\n'
  else if e == 'r' then some '\r'
  else if e == 't' then some '\t'
  else none

/-- The character a `\uXXXX` escape decodes to: its scalar value, or
U+FFFD for the surrogate range (Go additionally combines adjacent
high/low surrogate escapes into one scalar, a case the program's own
output never contains since the encoder below never writes surrogate
escapes). -/
def uChar (v : Nat) : Char :=
  if v < 0xD800 ∨ 0xE000 ≤ v then Char.ofNat v else '\uFFFD'

/-- Body of a JSON string after the opening quote: returns the decoded
characters and the input after the closing quote.  Raw control
characters are rejected, as in Go. -/
def strBody : List Char → Option (List Char × List Char)
  | [] => none
  | '"' :: rest => some ([], rest)
  | '\\' :: 'u' :: h1 :: h2 :: h3 :: h4 :: r =>
    (match hexQuad h1 h2 h3 h4 with
     | none => none
     | some v => (strBody r).map (fun p => (uChar v :: p.1, p.2)))
  | '\\' :: e :: r =>
    (match escChar e with
     | some ch => (strBody r).map (fun p => (ch :: p.1, p.2))
     | none => none)
  | c :: rest =>
    if c.toNat < 0x20 then none
    else (strBody rest).map (fun p => (c :: p.1, p.2))

/-- The exponent part of a JSON number literal: `e`/`E`, an optional
sign, and at least one digit — or nothing. -/
def numExp (cs : List Char) : Option (List Char × List Char) :=
  match cs with
  | e :: r =>
    if e == 'e' ∨ e == 'E' then
      (match r with
       | s :: r2 =>
         if s == '+' ∨ s == '-' then
           (match r2.takeWhile isDigitCh with
            | [] => none
            | ds => some (e :: s :: ds, r2.dropWhile isDigitCh))
         else
           (match r.takeWhile isDigitCh with
            | [] => none
            | ds => some (e :: ds, r.dropWhile isDigitCh))
       | [] => none)
    else some ([], cs)
  | [] => some ([], cs)

/-- The fractional part of a JSON number literal: a dot and at least one
digit, then the exponent — or the exponent alone. -/
def numFrac (cs : List Char) : Option (List Char × List Char) :=
  match cs with
  | '.' :: r =>
    (match r.takeWhile isDigitCh with
     | [] => none
     | ds => (numExp (r.dropWhile isDigitCh)).map (fun p => ('.' :: (ds ++ p.1), p.2)))
  | _ => numExp cs

/-- The unsigned part of a JSON number literal: `0` alone, or a nonzero
digit run, then fraction and exponent. -/
def numBody (cs : List Char) : Option (List Char × List Char) :=
  match cs with
  | c :: r =>
    if c == '0' then (numFrac r).map (fun p => ('0' :: p.1, p.2))
    else if isDigitCh c then
      (numFrac ((c :: r).dropWhile isDigitCh)).map
        (fun p => ((c :: r).takeWhile isDigitCh ++ p.1, p.2))
    else none
  | [] => none

/-- A JSON number literal, as Go's scanner accepts one: optional minus,
no superfluous leading zero, optional fraction and exponent.  The raw
literal is returned, as Go validates but does not convert it. -/
def numLit (cs : List Char) : Option (List Char × List Char) :=
  match cs with
  | '-' :: r => (numBody r).map (fun p => ('-' :: p.1, p.2))
  | _ => numBody cs

/-- Parser phase: a whole value, the members of an object after `{`, or
the elements of an array after `[`. -/
inductive JPhase where
  | value
  | members
  | elems
deriving DecidableEq, Repr

/-- The JSON parser, structural on a fuel counter (each recursive call
consumes at least one input character, so `length + 2` fuel always
suffices).  In `members`/`elems` phase the result is the `.obj`/`.arr`
being accumulated. -/
def parseJ : Nat → JPhase → List Char → Option (Json × List Char)
  | 0, _, _ => none
  | Nat.succ f, JPhase.value, cs =>
    (match wsDrop cs with
     | 'n' :: 'u' :: 'l' :: 'l' :: r => some (Json.null, r)
     | 't' :: 'r' :: 'u' :: 'e' :: r => some (Json.bool true, r)
     | 'f' :: 'a' :: 'l' :: 's' :: 'e' :: r => some (Json.bool false, r)
     | '"' :: r => (strBody r).map (fun p => (Json.str (String.mk p.1), p.2))
     | '\x7b' :: r =>
       (match wsDrop r with
        | '\x7d' :: r2 => some (Json.obj [], r2)
        | _ => parseJ f JPhase.members r)
     | '[' :: r =>
       (match wsDrop r with
        | ']' :: r2 => some (Json.arr [], r2)
        | _ => parseJ f JPhase.elems r)
     | c :: r =>
       if c == '-' ∨ isDigitCh c then
         (numLit (c :: r)).map (fun p => (Json.num (String.mk p.1), p.2))
       else none
     | [] => none)
  | Nat.succ f, JPhase.members, cs =>
    (match wsDrop cs with
     | '"' :: r =>
       (match strBody r with
        | some (k, r1) =>
          (match wsDrop r1 with
           | ':' :: r2 =>
             (match parseJ f JPhase.value r2 with
              | some (v, r3) =>
                (match wsDrop r3 with
                 | ',' :: r4 =>
                   (match parseJ f JPhase.members r4 with
                    | some (Json.obj kvs, r5) =>
                      some (Json.obj ((String.mk k, v) :: kvs), r5)
                    | _ => none)
                 | '\x7d' :: r4 => some (Json.obj [(String.mk k, v)], r4)
                 | _ => none)
              | none => none)
           | _ => none)
        | none => none)
     | _ => none)
  | Nat.succ f, JPhase.elems, cs =>
    (match parseJ f JPhase.value cs with
     | some (v, r) =>
       (match wsDrop r with
        | ',' :: r2 =>
          (match parseJ f JPhase.elems r2 with
           | some (Json.arr vs, r3) => some (Json.arr (v :: vs), r3)
           | _ => none)
        | ']' :: r2 => some (Json.arr [v], r2)
        | _ => none)
     | none => none)

/-- Model of `json.Unmarshal`'s scan of a whole input: one value, then
only whitespace may remain. -/
def goParseJson (s : String) : Option Json :=
  match parseJ (s.data.length + 64) JPhase.value s.data with
  | some (v, rest) => if wsDrop rest == [] then some v else none
  | none => none

/-! ### The JSON encoder (model of `json.Marshal` for scalar fields) -/

/-- Lowercase hexadecimal digit character, as the Go encoder writes. -/
def hexCh (n : Nat) : Char :=
  if n < 10 then Char.ofNat (48 + n) else Char.ofNat (97 + (n - 10))

/-- One character of a marshalled string, with Go's default HTML-safe
escaping: quote, backslash, `\n` `\r` `\t`, `\u00xx` for the remaining
control characters and for `<` `>` `&`, ` `/` `, and the
character itself otherwise. -/
def quoteCharL (c : Char) : List Char :=
  if c == '"' then ['\\', '"']
  else if c == '\\' then ['\\', '\\']
  else if c == '\n' then ['\\', 'n']
  else if c == '\r' then ['\\', 'r']
  else if c == '\t' then ['\\', 't']
  else if c.toNat < 0x20 ∨ c == '<' ∨ c == '>' ∨ c == '&' then
    ['\\', 'u', '0', '0', hexCh (c.toNat / 16), hexCh (c.toNat % 16)]
  else if c == '\u2028' then ['\\', 'u', '2', '0', '2', '8']
  else if c == '\u2029' then ['\\', 'u', '2', '0', '2', '9']
  else [c]

/-- The escaped body of a marshalled string. -/
def quoteBodyL (cs : List Char) : List Char := (cs.map quoteCharL).flatten

/-- A marshalled JSON string, quotes included. -/
def quoteStrL (cs : List Char) : List Char := '"' :: (quoteBodyL cs ++ ['"'])

/-! ### Decimal digits and integer literals -/

/-- The character of a decimal digit. -/
def decCh (n : Nat) : Char := Char.ofNat (48 + n)

/-- Fixed-width zero-padded decimal digits of `n` (for `n < 10 ^ w`). -/
def natPad : Nat → Nat → List Char
  | 0, _ => []
  | w + 1, n => natPad w (n / 10) ++ [decCh (n % 10)]

/-- The value of a run of decimal digit characters. -/
def digitsValL (cs : List Char) : Nat :=
  cs.foldl (fun a c => 10 * a + (c.toNat - 48)) 0

/-- Unpadded decimal digits of `n`, via a fuel counter (fuel `n + 1` is
always enough, as the seed value divides by ten each step). -/
def natCharsAux : Nat → Nat → List Char
  | 0, _ => []
  | f + 1, n => if n < 10 then [decCh n] else natCharsAux f (n / 10) ++ [decCh (n % 10)]

/-- The decimal digits of a natural number. -/
def natStrL (n : Nat) : List Char := natCharsAux (n + 1) n

/-- The decimal literal of an integer, as `strconv` formats one. -/
def intLitL (i : Int) : List Char :=
  if i < 0 then '-' :: natStrL i.natAbs else natStrL i.natAbs

/-- Model of `strconv.ParseInt` on a JSON number literal (the decoder
rejects fractions and exponents when the target is an integer field). -/
def parseIntLit (cs : List Char) : Option Int :=
  match cs with
  | [] => none
  | c :: ds =>
    if c == '-' then
      (if ds.isEmpty || !ds.all isDigitCh then none else some (-(digitsValL ds : Int)))
    else if c == '+' then
      (if ds.isEmpty || !ds.all isDigitCh then none else some (digitsValL ds : Int))
    else
      (if (c :: ds).all isDigitCh then some (digitsValL (c :: ds) : Int) else none)

/-! ### `time.Time` and its RFC 3339 JSON form -/

/-- The broken-down wall clock Go's `time.Time` marshals: RFC 3339 date
and time, nanoseconds, and a zone offset in minutes. -/
structure GoTime where
  year : Nat
  month : Nat
  day : Nat
  hour : Nat
  minute : Nat
  second : Nat
  nanos : Nat
  offsetMin : Int
deriving DecidableEq, Repr

/-- The ranges within which `time.Time.MarshalJSON` produces a parseable
RFC 3339 form (Go itself refuses years above 9999). -/
def GoTime.valid (t : GoTime) : Prop :=
  t.year ≤ 9999 ∧ 1 ≤ t.month ∧ t.month ≤ 12 ∧ 1 ≤ t.day ∧ t.day ≤ 31 ∧
  t.hour ≤ 23 ∧ t.minute ≤ 59 ∧ t.second ≤ 59 ∧ t.nanos < 1000000000 ∧
  t.offsetMin.natAbs ≤ 23 * 60 + 59

instance (t : GoTime) : Decidable t.valid := by
  unfold GoTime.valid; infer_instance

/-- Drop trailing zero characters, as RFC 3339 fractional seconds are
written without them. -/
def dropTrailZeros (cs : List Char) : List Char :=
  (cs.reverse.dropWhile (· == '0')).reverse

/-- The fractional-second part: empty when zero, else a dot and the
nine-digit nanosecond field with trailing zeros removed. -/
def fracPart (ns : Nat) : List Char :=
  if ns == 0 then [] else '.' :: dropTrailZeros (natPad 9 ns)

/-- The zone part: `Z` for UTC, else a signed `hh:mm` offset. -/
def tzPart (off : Int) : List Char :=
  if off == 0 then ['Z']
  else (if off < 0 then '-' else '+') ::
    (natPad 2 (off.natAbs / 60) ++ ':' :: natPad 2 (off.natAbs % 60))

/-- RFC 3339 rendering of a wall-clock value, as `time.Time.MarshalJSON`
writes inside the quotes. -/
def fmtRFC3339 (t : GoTime) : List Char :=
  natPad 4 t.year ++ '-' :: (natPad 2 t.month ++ '-' :: (natPad 2 t.day ++
  'T' :: (natPad 2 t.hour ++ ':' :: (natPad 2 t.minute ++ ':' ::
  (natPad 2 t.second ++ (fracPart t.nanos ++ tzPart t.offsetMin))))))

/-- Two decimal digits and the rest of the input. -/
def parse2 : List Char → Option (Nat × List Char)
  | a :: b :: r =>
    if isDigitCh a && isDigitCh b then some (digitsValL [a, b], r) else none
  | _ => none

/-- Four decimal digits and the rest of the input. -/
def parse4 : List Char → Option (Nat × List Char)
  | a :: b :: c :: d :: r =>
    if isDigitCh a && isDigitCh b && isDigitCh c && isDigitCh d then
      some (digitsValL [a, b, c, d], r)
    else none
  | _ => none

/-- Require a literal character. -/
def expectCh (c : Char) : List Char → Option (List Char)
  | x :: r => if x == c then some r else none
  | [] => none

/-- Optional fractional seconds: nothing, or a dot and up to nine digits,
scaled to nanoseconds. -/
def parseFrac : List Char → Option (Nat × List Char)
  | '.' :: r =>
    (match r.takeWhile isDigitCh with
     | [] => none
     | ds =>
       if ds.length ≤ 9 then
         some (digitsValL (ds ++ List.replicate (9 - ds.length) '0'), r.dropWhile isDigitCh)
       else none)
  | cs => some (0, cs)

/-- The zone: `Z`, or a signed two-digit hour and minute offset. -/
def parseTz : List Char → Option (Int × List Char)
  | 'Z' :: r => some (0, r)
  | c :: r =>
    if c == '+' ∨ c == '-' then
      match parse2 r with
      | some (hh, r1) =>
        (match expectCh ':' r1 with
         | some r2 =>
           (match parse2 r2 with
            | some (mm, r3) =>
              if hh ≤ 23 ∧ mm ≤ 59 then
                some ((if c == '-' then -(hh * 60 + mm : Int) else (hh * 60 + mm : Int)), r3)
              else none
            | none => none)
         | none => none)
      | none => none
    else none
  | [] => none

/-- Model of the RFC 3339 parse `time.Time.UnmarshalJSON` performs,
range checks included. -/
def parseRFC3339 (s : String) : Option GoTime :=
  (parse4 s.data).bind (fun py =>
  (expectCh '-' py.2).bind (fun r1 =>
  (parse2 r1).bind (fun pmo =>
  (expectCh '-' pmo.2).bind (fun r2 =>
  (parse2 r2).bind (fun pd =>
  (expectCh 'T' pd.2).bind (fun r3 =>
  (parse2 r3).bind (fun ph =>
  (expectCh ':' ph.2).bind (fun r4 =>
  (parse2 r4).bind (fun pmi =>
  (expectCh ':' pmi.2).bind (fun r5 =>
  (parse2 r5).bind (fun ps =>
  (parseFrac ps.2).bind (fun pns =>
  (parseTz pns.2).bind (fun poff =>
    if poff.2 = [] ∧ 1 ≤ pmo.1 ∧ pmo.1 ≤ 12 ∧ 1 ≤ pd.1 ∧ pd.1 ≤ 31 ∧
        ph.1 ≤ 23 ∧ pmi.1 ≤ 59 ∧ ps.1 ≤ 59 then
      some ⟨py.1, pmo.1, pd.1, ph.1, pmi.1, ps.1, pns.1, poff.1⟩
    else none)))))))))))))

/-! ### The tool-call log record (`ToolCallLog` in `task.go`) -/

/-- A scalar JSON value to be marshalled: the only shapes the log record's
fields produce. -/
inductive JScalar where
  | null
  | bool (b : Bool)
  | num (lit : List Char)
  | str (s : String)

/-- The decoded form of a scalar. -/
def JScalar.toJson : JScalar → Json
  | .null => Json.null
  | .bool b => Json.bool b
  | .num lit => Json.num (String.mk lit)
  | .str s => Json.str s

/-- Marshalled characters of a scalar value. -/
def encodeScalar : JScalar → List Char
  | .null => ['\x6e', '\x75', '\x6c', '\x6c']
  | .bool true => ['\x74', '\x72', '\x75', '\x65']
  | .bool false => ['\x66', '\x61', '\x6c', '\x73', '\x65']
  | .num lit => lit
  | .str s => quoteStrL s.data

/-- Marshalled members of an object with scalar fields, comma separated,
in field order, as `json.Marshal` writes a struct. -/
def encodeMembers (kvs : List (String × JScalar)) : List Char :=
  joinSepL ',' (kvs.map (fun kv => quoteStrL kv.1.data ++ ':' :: encodeScalar kv.2))

/-- The `ToolCallLog` struct of `task.go` (lines 49-60): one log entry of
`tool_calls.log`. -/
structure ToolCallLog where
  timestamp : GoTime
  model : String
  toolName : String
  arguments : String
  status : String
  message : String
  output : String
  errorDetails : String
  toolsEnabled : Bool
  rating : Int
deriving DecidableEq, Repr

/-- Go zero value of `time.Time`: January 1 of year 1, UTC. -/
def zeroGoTime : GoTime := ⟨1, 1, 1, 0, 0, 0, 0, 0⟩

/-- Go zero value of `ToolCallLog`. -/
def zeroToolCallLog : ToolCallLog := ⟨zeroGoTime, "", "", "", "", "", "", "", false, 0⟩

/-- The JSON members `json.Marshal` writes for a log entry, honouring the
struct's tags: field order, and `omitempty` on `output`, `error_details`
and `rating`. -/
def logFields (e : ToolCallLog) : List (String × JScalar) :=
  [("timestamp", JScalar.str (String.mk (fmtRFC3339 e.timestamp))),
   ("model", JScalar.str e.model),
   ("tool_name", JScalar.str e.toolName),
   ("arguments", JScalar.str e.arguments),
   ("status", JScalar.str e.status),
   ("message", JScalar.str e.message)] ++
  (if e.output = "" then [] else [("output", JScalar.str e.output)]) ++
  (if e.errorDetails = "" then [] else [("error_details", JScalar.str e.errorDetails)]) ++
  [("tools_enabled", JScalar.bool e.toolsEnabled)] ++
  (if e.rating = 0 then [] else [("rating", JScalar.num (intLitL e.rating))])

/-- Model of `json.Marshal` on a `ToolCallLog` value. -/
def marshalToolCallLog (e : ToolCallLog) : String :=
  String.mk ('\x7b' :: (encodeMembers (logFields e) ++ ['\x7d']))

/-- Model of `strings.EqualFold` (Go matches JSON keys to struct fields
case-insensitively when no exact match exists; no two log fields differ
only by case, so one fold-equality test is faithful). -/
def goEqFold (a b : String) : Bool := toLowerL a.data == toLowerL b.data

/-- Decoding one JSON member into the log struct: `null` leaves the field
alone, a wrongly-typed value is an error, unknown keys are ignored —
exactly `encoding/json`'s object decoding. -/
def decodeLogField (acc : ToolCallLog) (k : String) (v : Json) : Option ToolCallLog :=
  if goEqFold k "timestamp" then
    match v with
    | Json.null => some acc
    | Json.str s => (parseRFC3339 s).map (fun t => { acc with timestamp := t })
    | _ => none
  else if goEqFold k "model" then
    match v with
    | Json.null => some acc
    | Json.str s => some { acc with model := s }
    | _ => none
  else if goEqFold k "tool_name" then
    match v with
    | Json.null => some acc
    | Json.str s => some { acc with toolName := s }
    | _ => none
  else if goEqFold k "arguments" then
    match v with
    | Json.null => some acc
    | Json.str s => some { acc with arguments := s }
    | _ => none
  else if goEqFold k "status" then
    match v with
    | Json.null => some acc
    | Json.str s => some { acc with status := s }
    | _ => none
  else if goEqFold k "message" then
    match v with
    | Json.null => some acc
    | Json.str s => some { acc with message := s }
    | _ => none
  else if goEqFold k "output" then
    match v with
    | Json.null => some acc
    | Json.str s => some { acc with output := s }
    | _ => none
  else if goEqFold k "error_details" then
    match v with
    | Json.null => some acc
    | Json.str s => some { acc with errorDetails := s }
    | _ => none
  else if goEqFold k "tools_enabled" then
    match v with
    | Json.null => some acc
    | Json.bool b => some { acc with toolsEnabled := b }
    | _ => none
  else if goEqFold k "rating" then
    match v with
    | Json.null => some acc
    | Json.num lit => (parseIntLit lit.data).map (fun i => { acc with rating := i })
    | _ => none
  else some acc

/-- Decode a member list left to right (later duplicates win, as in Go). -/
def decodeLogFields : ToolCallLog → List (String × Json) → Option ToolCallLog
  | acc, [] => some acc
  | acc, (k, v) :: rest =>
    match decodeLogField acc k v with
    | some a => decodeLogFields a rest
    | none => none

/-- Decode a JSON value into a `ToolCallLog`: an object decodes its
members, `null` is a no-op on the zero value, anything else errors. -/
def decodeToolCallLog : Json → Option ToolCallLog
  | Json.null => some zeroToolCallLog
  | Json.obj kvs => decodeLogFields zeroToolCallLog kvs
  | _ => none

/-- Model of `json.Unmarshal` into a `ToolCallLog`. -/
def unmarshalToolCallLog (line : String) : Option ToolCallLog :=
  (goParseJson line).bind decodeToolCallLog

/-! ### The interaction logger (`logToolCall`, `task.go` lines 97-135) -/

/-- The readback loop of `logToolCall` (lines 105-115): split the trimmed
file on newlines, skip blank lines, keep the lines that unmarshal,
silently dropping malformed ones. -/
def parseLogLines (data : String) : List ToolCallLog :=
  (splitOnCharL '\n' (trimSpaceL data.data)).filterMap
    (fun l => if trimSpaceL l == [] then none else unmarshalToolCallLog (String.mk l))

/-- The fixed rotation cap (`maxEntries`). -/
def maxLogEntries : Nat := 1000

/-- The writeback of `logToolCall` (lines 126-134): one marshalled entry
per line, a trailing newline. -/
def writeLogFile (logs : List ToolCallLog) : String :=
  String.mk (joinSepL '\n' (logs.map (fun e => (marshalToolCallLog e).data)) ++ ['\n'])

/-- Model of `logToolCall`: the content the call writes back, as a
function of the previous file content (`none` when the file could not be
read) and the new entry.  Readback, append, rotation to the newest 1000,
full rewrite. -/
def logToolCall (existingData : Option String) (logEntry : ToolCallLog) : String :=
  let existingLogs := match existingData with
    | some d => parseLogLines d
    | none => []
  let logs := existingLogs ++ [logEntry]
  let logs := if maxLogEntries < logs.length then logs.drop (logs.length - maxLogEntries) else logs
  writeLogFile logs

/-! ### Tool results and parameter decoding (`task.go`) -/

/-- The `TaskResponse` envelope every tool returns. -/
structure TaskResponse where
  status : String
  message : String
  output : String
deriving DecidableEq, Repr

/-- The argument struct of `executeRunCommands`: `command` and an
optional `timeout` in seconds. -/
structure RunParams where
  command : String
  timeout : Option Int
deriving DecidableEq, Repr

/-- The argument struct of `executeEditFiles`: `path` and `diff`. -/
structure EditParams where
  path : String
  diff : String
deriving DecidableEq, Repr

/-- Decode one JSON member into `RunParams`, with `encoding/json`'s
field-matching rules (`null` clears the pointer field, leaves the string
field; unknown keys ignored; an integer field rejects non-integer
literals). -/
def decodeRunField (acc : RunParams) (k : String) (v : Json) : Option RunParams :=
  if goEqFold k "command" then
    match v with
    | Json.null => some acc
    | Json.str s => some { acc with command := s }
    | _ => none
  else if goEqFold k "timeout" then
    match v with
    | Json.null => some { acc with timeout := none }
    | Json.num lit => (parseIntLit lit.data).map (fun i => { acc with timeout := some i })
    | _ => none
  else some acc

/-- Decode a member list into `RunParams`, left to right. -/
def decodeRunFields : RunParams → List (String × Json) → Option RunParams
  | acc, [] => some acc
  | acc, (k, v) :: rest =>
    match decodeRunField acc k v with
    | some a => decodeRunFields a rest
    | none => none

/-- Model of `json.Unmarshal` into `RunParams`. -/
def unmarshalRunParams (arguments : String) : Option RunParams :=
  (goParseJson arguments).bind (fun j =>
    match j with
    | Json.null => some ⟨"", none⟩
    | Json.obj kvs => decodeRunFields ⟨"", none⟩ kvs
    | _ => none)

/-- Decode one JSON member into `EditParams`. -/
def decodeEditField (acc : EditParams) (k : String) (v : Json) : Option EditParams :=
  if goEqFold k "path" then
    match v with
    | Json.null => some acc
    | Json.str s => some { acc with path := s }
    | _ => none
  else if goEqFold k "diff" then
    match v with
    | Json.null => some acc
    | Json.str s => some { acc with diff := s }
    | _ => none
  else some acc

/-- Decode a member list into `EditParams`, left to right. -/
def decodeEditFields : EditParams → List (String × Json) → Option EditParams
  | acc, [] => some acc
  | acc, (k, v) :: rest =>
    match decodeEditField acc k v with
    | some a => decodeEditFields a rest
    | none => none

/-- Model of `json.Unmarshal` into `EditParams`. -/
def unmarshalEditParams (arguments : String) : Option EditParams :=
  (goParseJson arguments).bind (fun j =>
    match j with
    | Json.null => some ⟨"", ""⟩
    | Json.obj kvs => decodeEditFields ⟨"", ""⟩ kvs
    | _ => none)

/-! ### The command safety gate (`isDangerousCommand`, lines 596-616) -/

/-- The fixed denylist of `isDangerousCommand`. -/
def dangerousPatterns : List String :=
  ["rm -rf /", "rm -rf /usr", "rm -rf /bin", "dd if=", "mkfs", "fdisk",
   "shred", "cryptsetup"]

/-- Model of `isDangerousCommand`: lowercase the command, then test each
pattern for containment. -/
def isDangerousCommand (command : String) : Bool :=
  let command := goToLower command
  dangerousPatterns.any (fun pattern => goContains command pattern)

/-! ### `run_commands` (`executeRunCommands`, lines 529-594) -/

/-- What `executeRunCommands` does after argument parsing, up to the
point where control either returns an immediate `TaskResponse` or hands
the command to `exec.CommandContext`: `respond` means no process is ever
spawned, `spawn` records the command and the effective deadline in
seconds (30 unless a timeout argument was given). -/
inductive RunOutcome where
  | respond (r : TaskResponse)
  | spawn (command : String) (timeoutSeconds : Int)
deriving DecidableEq, Repr

/-- The validation and safety section of `executeRunCommands` (lines
542-567), on parsed parameters. -/
def executeRunCommandsParsed (params : RunParams) : RunOutcome :=
  if params.command == "" then
    RunOutcome.respond ⟨"error", "Command is required", ""⟩
  else if isDangerousCommand params.command then
    RunOutcome.respond ⟨"denied", "Command was denied for safety reasons", ""⟩
  else
    RunOutcome.spawn params.command
      (match params.timeout with
       | some t => t
       | none => 30)

/-- Model of `executeRunCommands` as a function of the raw arguments
string (the parse-error message elides Go's error detail text). -/
def executeRunCommands (arguments : String) : RunOutcome :=
  match unmarshalRunParams arguments with
  | none => RunOutcome.respond ⟨"error", "Failed to parse run_commands arguments", ""⟩
  | some params => executeRunCommandsParsed params

/-! ### `edit_files` (`executeEditFiles`, lines 497-527) -/

/-- Filesystem operations an execution could perform.  `executeEditFiles`
performs none — the returned trace is the complete record of the
function's filesystem activity. -/
inductive FsEffect where
  | readFile (path : String)
  | writeFile (path : String) (content : String)
  | mkdirAll (path : String)
deriving DecidableEq, Repr

/-- The body of `executeEditFiles` after argument parsing (lines
510-526): validate, then return success without touching any file. -/
def executeEditFilesParsed (params : EditParams) : TaskResponse × List FsEffect :=
  if params.path == "" || params.diff == "" then
    (⟨"error", "Both path and diff are required", ""⟩, [])
  else
    (⟨"success", "File edit operation would be applied to " ++ params.path,
      "Applied diff to " ++ params.path⟩, [])

/-- Model of `executeEditFiles` on the raw arguments string, paired with
the trace of filesystem effects it performs. -/
def executeEditFiles (arguments : String) : TaskResponse × List FsEffect :=
  match unmarshalEditParams arguments with
  | none => (⟨"error", "Failed to parse edit_files arguments", ""⟩, [])
  | some params => executeEditFilesParsed params

/-! ### The tool dispatcher (`ExecuteTask` tool loop, lines 359-409) -/

/-- A structured function call from the model (`common.FunctionCall`). -/
structure FunctionCall where
  name : String
  arguments : String
deriving DecidableEq, Repr

/-- A structured tool call from the model (`common.ToolCall`). -/
structure ToolCall where
  id : String
  type : String
  function : FunctionCall
deriving DecidableEq, Repr

/-- The `switch toolCall.Function.Name` of the tool loop (lines 367-377):
dispatch to the matching executor, or an error naming the unknown tool. -/
def dispatchToolCall (toolCall : ToolCall) : RunOutcome :=
  if toolCall.function.name == "edit_files" then
    RunOutcome.respond (executeEditFiles toolCall.function.arguments).1
  else if toolCall.function.name == "run_commands" then
    executeRunCommands toolCall.function.arguments
  else
    RunOutcome.respond ⟨"error", "Unknown tool: " ++ toolCall.function.name, ""⟩

/-- The tool loop itself: every call in the turn is dispatched in order,
unconditionally — no early exit, one result (and one log write, line
408) per call. -/
def processToolCalls (toolCalls : List ToolCall) : List RunOutcome :=
  toolCalls.map dispatchToolCall

/-! ### The response interpreter (`parseCommandFromResponse`, lines 626-767) -/

/-- Model of `json.Unmarshal` into a `map[string]interface{}`: the value
must be an object (or `null`, which gives the empty map). -/
def unmarshalMap (s : String) : Option (List (String × Json)) :=
  match goParseJson s with
  | some (Json.obj kvs) => some kvs
  | some Json.null => some []
  | _ => none

/-- The fence-stripping step (lines 635-652), applied to the trimmed
content: remove one opening code-fence line and one closing fence line,
then trim again. -/
def mdFenceStrip (content : String) : String :=
  if goStarts content "```" then
    let lines := splitOnCharL '\n' content.data
    let lines := match lines with
      | first :: rest => if startsL (trimSpaceL first) "```".data then rest else lines
      | [] => lines
    let lines := match lines.getLast? with
      | some last => if trimSpaceL last == "```".data then lines.dropLast else lines
      | none => lines
    String.mk (trimSpaceL (joinSepL '\n' lines))
  else content

/-- The slice `cs[i:j]` of a character list. -/
def sliceL (cs : List Char) (i j : Nat) : List Char := (cs.take j).drop i

/-- The JSON-recovery step (lines 654-669): parse the content as an
object; failing that, retry on the substring between the first `{` and
the last `}`, which then replaces the working content. -/
def tryParseMap (content : String) : Option (List (String × Json)) × String :=
  match unmarshalMap content with
  | some m => (some m, content)
  | none =>
    match firstIdxL content.data '\x7b', lastIdxL content.data '\x7d' with
    | some si, some ei =>
      if si < ei then
        let jsonStr := String.mk (sliceL content.data si (ei + 1))
        match unmarshalMap jsonStr with
        | some m => (some m, jsonStr)
        | none => (none, content)
      else (none, content)
    | _, _ => (none, content)

/-- The four extraction shapes (lines 671-700): a top-level `command`
string, `arguments.command` with `arguments` an object, or `arguments` a
string whose own JSON carries `command`; empty when none applies. -/
def extractCmd (m : List (String × Json)) : String :=
  let cmd := match objGet m "command" with
    | some (Json.str c) => c
    | _ => ""
  let cmd := if cmd == "" then
      match objGet m "arguments" with
      | some (Json.obj args) =>
        (match objGet args "command" with
         | some (Json.str c) => c
         | _ => "")
      | _ => ""
    else cmd
  if cmd == "" then
    match objGet m "arguments" with
    | some (Json.str argsStr) =>
      (match unmarshalMap argsStr with
       | some args =>
         (match objGet args "command" with
          | some (Json.str c) => c
          | _ => "")
       | none => "")
    | _ => ""
  else cmd

/-- The read-only allowlist of auto-executable informational commands
(lines 708-715). -/
def safeInfoCommands : List String :=
  ["who", "w", "users", "whoami", "id",
   "cat /etc/passwd", "getent passwd", "cut -d: -f1 /etc/passwd",
   "ls", "pwd", "date", "uptime",
   "uname", "hostname", "df", "free",
   "ps", "systemctl list-units", "systemctl status",
   "netstat", "ss", "ip addr", "ip route"]

/-- The safety classification of an extracted command (lines 717-737),
taking the lowercased, trimmed command: an allowlist entry exactly or
followed by a space, or one of the broader read-only verb heads. -/
def isSafeInfoCommand (cmdLower : String) : Bool :=
  safeInfoCommands.any (fun safeCmd =>
    cmdLower == safeCmd || goStarts cmdLower (safeCmd ++ " ")) ||
  goStarts cmdLower "cat " || goStarts cmdLower "less " ||
  goStarts cmdLower "head " || goStarts cmdLower "tail " ||
  goStarts cmdLower "grep " || goStarts cmdLower "find " ||
  goStarts cmdLower "ls " || goStarts cmdLower "getent " ||
  goStarts cmdLower "cut "

/-- The plain-text fallback scan (lines 744-766): the first nonblank
line mentioning a quoted `command` key with a colon yields the trimmed,
quote-stripped text after the colon — never marked for auto-execution. -/
def textScanLines : List (List Char) → String × Bool
  | [] => ("", false)
  | line :: rest =>
    let line := trimSpaceL line
    if line == [] then textScanLines rest
    else if containsL line "\"command\"".data || containsL line "\x27command\x27".data then
      match firstIdxL line ':' with
      | some idx =>
        if 0 < idx then
          let potentialCmd := trimSpaceL (line.drop (idx + 1))
          let potentialCmd := trimCutsetL ['"', '\x27', '\x7b', '\x7d', '[', ']'] potentialCmd
          if potentialCmd ≠ [] ∧ ¬ containsL potentialCmd ['\x7b'] then
            (String.mk potentialCmd, false)
          else textScanLines rest
        else textScanLines rest
      | none => textScanLines rest
    else textScanLines rest

/-- The fallback scan over the working content's lines. -/
def textScan (content : String) : String × Bool :=
  textScanLines (splitOnCharL '\n' content.data)

/-- Model of `parseCommandFromResponse`: the recovered command, if any,
and whether it may be auto-executed. -/
def parseCommandFromResponse (content : String) : String × Bool :=
  if content == "" then ("", false)
  else
    let content := mdFenceStrip (goTrimSpace content)
    match tryParseMap content with
    | (some m, content2) =>
      let cmd := extractCmd m
      if cmd ≠ "" then (cmd, isSafeInfoCommand (goToLower (goTrimSpace cmd)))
      else textScan content2
    | (none, content2) => textScan content2

/-- The command recovered through the JSON-object path alone (the
`jsonErr == nil`, `cmd != ""` branch of lines 671-741); `none` when the
interpreter would instead fall to the plain-text scan. -/
def jsonRecoveredCommand (content : String) : Option String :=
  if content == "" then none
  else
    match tryParseMap (mdFenceStrip (goTrimSpace content)) with
    | (some m, _) =>
      let cmd := extractCmd m
      if cmd ≠ "" then some cmd else none
    | (none, _) => none

/-- A list that cannot extend a preceding number literal: empty, or headed
by a member/element delimiter.  Marshalled object members always follow a
value with `,` or the closing brace. -/
def NumBoundary (rest : List Char) : Prop :=
  rest.head? = some ',' ∨ rest.head? = some '\x7d'

/-! # Theorems -/

/-! ### Substring and prefix support lemmas -/

theorem startsL_append (l r : List Char) : startsL (l ++ r) l = true := by
  rw [startsL, List.isPrefixOf_iff_prefix]
  exact List.prefix_append l r

theorem containsL_append_self (a p b : List Char) :
    containsL (a ++ (p ++ b)) p = true := by
  induction a with
  | nil =>
    cases p with
    | nil =>
      cases b with
      | nil => rfl
      | cons c t => simp [containsL]
    | cons x q =>
      rw [List.nil_append, List.cons_append, containsL]
      have : (x :: q).isPrefixOf (x :: (q ++ b)) = true := by
        rw [List.isPrefixOf_iff_prefix]
        exact List.prefix_append (x :: q) b
      simp [this]
  | cons c a ih =>
    rw [List.cons_append, containsL, ih, Bool.or_true]

theorem toLowerL_append (a b : List Char) :
    toLowerL (a ++ b) = toLowerL a ++ toLowerL b := List.map_append asciiLower a b

/-! ### C1: the denylist forces `status=denied` with no spawned process -/

/-- C1: for every `run_commands` invocation whose parsed command string
contains, case-insensitively, one of the denylist substrings,
`executeRunCommands` answers the `denied` response immediately — the
outcome is a `respond`, never a `spawn`, so no process is started. -/
theorem C1_denylist_command_denied_no_spawn
    (arguments : String) (params : RunParams)
    (hparse : unmarshalRunParams arguments = some params)
    (hpat : ∃ pat ∈ dangerousPatterns, containsL (toLowerL params.command.data) pat.data = true) :
    executeRunCommands arguments =
      RunOutcome.respond ⟨"denied", "Command was denied for safety reasons", ""⟩ := by
  have hdang : isDangerousCommand params.command = true := by
    obtain ⟨pat, hmem, hc⟩ := hpat
    rw [isDangerousCommand, List.any_eq_true]
    exact ⟨pat, hmem, hc⟩
  have hne : (params.command == "") = false := by
    rcases h : params.command == "" with _ | _
    · rfl
    · rw [beq_iff_eq] at h
      rw [h] at hdang
      exact absurd hdang (by decide)
  rw [executeRunCommands, hparse]
  simp [executeRunCommandsParsed, hne, hdang]

/-- Witness for C1 at the concrete arguments of scenario 2. -/
theorem C1_witness :
    executeRunCommands "\x7b\"command\": \"rm -rf /\"\x7d" =
      RunOutcome.respond ⟨"denied", "Command was denied for safety reasons", ""⟩ :=
  C1_denylist_command_denied_no_spawn _ ⟨"rm -rf /", none⟩ (by decide)
    ⟨"rm -rf /", by decide, by decide⟩

/-! ### C5: `chmod 777` is not in the gate; `sudo ... rm -rf /` is caught -/

/-- C5 counterexample: the command `chmod 777 /etc/passwd` contains the
pattern `chmod 777`, yet the safety gate does not classify it dangerous
and `run_commands` proceeds to spawn it rather than answer `denied`. -/
theorem C5_counterexample :
    isDangerousCommand "chmod 777 /etc/passwd" = false ∧
    executeRunCommands "\x7b\"command\": \"chmod 777 /etc/passwd\"\x7d" =
      RunOutcome.spawn "chmod 777 /etc/passwd" 30 := by decide

/-- C5 amended: every command containing, case-insensitively, `sudo `
followed later by `rm -rf /` is classified dangerous (through the
`rm -rf /` denylist entry), so `run_commands` answers `denied` and spawns
nothing; the `chmod 777` pattern of the front-end layer is not enforced
by this implementation (see the counterexample). -/
theorem C5_sudo_rm_rf_denied
    (pre s mid r post : List Char) (tmo : Option Int)
    (hs : toLowerL s = "sudo ".data) (hr : toLowerL r = "rm -rf /".data) :
    executeRunCommandsParsed ⟨String.mk (pre ++ (s ++ (mid ++ (r ++ post)))), tmo⟩ =
      RunOutcome.respond ⟨"denied", "Command was denied for safety reasons", ""⟩ := by
  have hdang : isDangerousCommand (String.mk (pre ++ (s ++ (mid ++ (r ++ post))))) = true := by
    rw [isDangerousCommand, List.any_eq_true]
    refine ⟨"rm -rf /", by decide, ?_⟩
    show containsL (toLowerL (pre ++ (s ++ (mid ++ (r ++ post))))) "rm -rf /".data = true
    simp only [toLowerL_append, hs, hr]
    have := containsL_append_self ((toLowerL pre ++ "sudo ".data) ++ toLowerL mid)
      "rm -rf /".data (toLowerL post)
    simpa [List.append_assoc] using this
  have hnil : pre ++ (s ++ (mid ++ (r ++ post))) ≠ [] := by
    intro h
    rw [h] at hdang
    exact absurd hdang (by decide)
  have hne : ¬(String.mk (pre ++ (s ++ (mid ++ (r ++ post)))) = "") := by
    intro h
    exact hnil (congrArg String.data h)
  simp [executeRunCommandsParsed, hne, hdang]

/-- Witness for C5 at a concrete mixed-case `sudo ... rm -rf /` command. -/
theorem C5_witness :
    executeRunCommandsParsed
      ⟨String.mk ([] ++ ("SUDO ".data ++ ("-u root ".data ++ ("RM -rf /".data ++ [])))), none⟩ =
      RunOutcome.respond ⟨"denied", "Command was denied for safety reasons", ""⟩ :=
  C5_sudo_rm_rf_denied [] "SUDO ".data "-u root ".data "RM -rf /".data [] none
    (by decide) (by decide)

/-! ### C4: `edit_files` validation errors precede any filesystem access -/

/-- C4: an `edit_files` invocation whose parsed path is empty, or whose
diff is absent or empty (the struct has no content argument, so a missing
diff cannot be compensated), answers the `error` response naming the
required arguments, with an empty filesystem-effect trace — no
filesystem access happens at all. -/
theorem C4_edit_files_empty_args_error_no_fs
    (arguments : String) (params : EditParams)
    (hparse : unmarshalEditParams arguments = some params)
    (hempty : params.path = "" ∨ params.diff = "") :
    executeEditFiles arguments =
      (⟨"error", "Both path and diff are required", ""⟩, []) := by
  rw [executeEditFiles, hparse]
  rcases hempty with h | h <;> simp [executeEditFilesParsed, h]

/-- Witness for C4 at concrete arguments with an empty path. -/
theorem C4_witness :
    executeEditFiles "\x7b\"path\": \"\", \"diff\": \"x\"\x7d" =
      (⟨"error", "Both path and diff are required", ""⟩, []) :=
  C4_edit_files_empty_args_error_no_fs _ ⟨"", "x"⟩ (by decide) (Or.inl rfl)

/-! ### C10: `edit_files` succeeds while touching no file whatsoever -/

/-- C10: an `edit_files` invocation with a nonempty parsed path and a
nonempty diff answers `status=success`, and its filesystem-effect trace
is empty: nothing is read, created or modified, so the filesystem state
after the call equals the state before it. -/
theorem C10_edit_files_success_no_filesystem_touch
    (arguments : String) (params : EditParams)
    (hparse : unmarshalEditParams arguments = some params)
    (hpath : params.path ≠ "") (hdiff : params.diff ≠ "") :
    executeEditFiles arguments =
      (⟨"success", "File edit operation would be applied to " ++ params.path,
        "Applied diff to " ++ params.path⟩, []) := by
  rw [executeEditFiles, hparse]
  simp [executeEditFilesParsed, hpath, hdiff]

/-- Witness for C10 at concrete arguments. -/
theorem C10_witness :
    executeEditFiles "\x7b\"path\": \"f.txt\", \"diff\": \"+hello\"\x7d" =
      (⟨"success", "File edit operation would be applied to f.txt",
        "Applied diff to f.txt"⟩, []) :=
  C10_edit_files_success_no_filesystem_touch _ ⟨"f.txt", "+hello"⟩ (by decide)
    (by decide) (by decide)

/-! ### C3: the diff of scenario 5 is never applied -/

/-- C3: at the exact invocation of scenario 5 — path `f.txt`, diff
`" line1\n+line2\n-line1"` — `executeEditFiles` reports success with an
empty filesystem-effect trace: the existing file is never read and no
content is ever written, so a file containing `line1` still contains
`line1` afterwards, not the `line1\nline2` the specification's
line-positional patch algorithm requires. -/
theorem C3_edit_files_stub_ignores_diff :
    executeEditFiles "\x7b\"path\": \"f.txt\", \"diff\": \" line1\\n+line2\\n-line1\"\x7d" =
      (⟨"success", "File edit operation would be applied to f.txt",
        "Applied diff to f.txt"⟩, []) := by decide

/-! ### C7: the persisted log entry has no query or response fields -/

/-- C7: no `ToolCallLog` the logger marshals carries a `user_query` or a
`model_response` member — the persisted fields are exactly timestamp,
model, tool_name, arguments, status, message, output, error_details,
tools_enabled and rating, contradicting the documented LogEntry shape. -/
theorem C7_log_entry_lacks_query_and_response_fields (e : ToolCallLog) :
    "user_query" ∉ (logFields e).map Prod.fst ∧
    "model_response" ∉ (logFields e).map Prod.fst := by
  constructor <;>
    (simp only [logFields]; split_ifs <;> simp +decide)

/-! ### C9: unknown tools error by name; siblings still run -/

/-- C9: the tool loop dispatches every call of the turn — the outcome
list has one entry per call, with no early exit — and any call naming a
tool other than `edit_files` and `run_commands` yields an `error` result
whose message names the offending tool. -/
theorem C9_unknown_tool_error_siblings_attempted
    (toolCalls : List ToolCall) (i : Nat) (h : i < toolCalls.length) :
    (processToolCalls toolCalls).length = toolCalls.length ∧
    ((toolCalls.get ⟨i, h⟩).function.name ∉ (["edit_files", "run_commands"] : List String) →
      (processToolCalls toolCalls).get ⟨i, by simpa [processToolCalls] using h⟩ =
        RunOutcome.respond
          ⟨"error", "Unknown tool: " ++ (toolCalls.get ⟨i, h⟩).function.name, ""⟩) := by
  constructor
  · simp [processToolCalls]
  · intro hname
    simp only [List.mem_cons, List.mem_singleton, not_or] at hname
    obtain ⟨h1, h2⟩ := hname
    simp only [processToolCalls, List.get_eq_getElem, List.getElem_map]
    rw [dispatchToolCall, if_neg (by simp [List.get_eq_getElem] at h1 ⊢; exact h1),
      if_neg (by simp [List.get_eq_getElem] at h2 ⊢; exact h2)]

/-- Witness for C9: a turn with an unknown tool followed by a known one;
the unknown call errors by name and the sibling is still dispatched. -/
theorem C9_witness :
    (processToolCalls
      [⟨"1", "function", ⟨"frobnicate", "\x7b\x7d"⟩⟩,
       ⟨"2", "function", ⟨"run_commands", "\x7b\"command\": \"pwd\"\x7d"⟩⟩]).length = 2 ∧
    (processToolCalls
      [⟨"1", "function", ⟨"frobnicate", "\x7b\x7d"⟩⟩,
       ⟨"2", "function", ⟨"run_commands", "\x7b\"command\": \"pwd\"\x7d"⟩⟩]).get ⟨0, by decide⟩ =
      RunOutcome.respond ⟨"error", "Unknown tool: frobnicate", ""⟩ := by
  have h := C9_unknown_tool_error_siblings_attempted
    [⟨"1", "function", ⟨"frobnicate", "\x7b\x7d"⟩⟩,
     ⟨"2", "function", ⟨"run_commands", "\x7b\"command\": \"pwd\"\x7d"⟩⟩] 0 (by decide)
  exact ⟨h.1, h.2 (by decide)⟩

/-! ### C2: the auto-execute flag, and the plain-text fallback -/

theorem textScanLines_flag (lines : List (List Char)) :
    (textScanLines lines).2 = false := by
  induction lines with
  | nil => rfl
  | cons l rest ih =>
    rw [textScanLines]
    dsimp only
    repeat' split
    all_goals first | rfl | exact ih

theorem textScan_flag (content : String) : (textScan content).2 = false :=
  textScanLines_flag _

/-- C2 counterexample: from the content `"command": cat foo` the
interpreter recovers the command `cat foo` through the plain-text line
scan; the command starts with the read-only verb head `cat `, yet the
auto-execute flag is `false`, not the `true` the claim requires. -/
theorem C2_counterexample :
    parseCommandFromResponse "\"command\": cat foo" = ("cat foo", false) ∧
    goStarts (goToLower (goTrimSpace "cat foo")) "cat " = true := by decide

/-- C2 amended: the interpreter's auto-execute flag is `true` exactly
when the command was recovered through the JSON-object extraction path
and its lowercased, trimmed form matches the read-only allowlist (an
entry exactly, or an entry followed by a space, or one of the read-only
verb heads); every command recovered by the plain-text line scan — and
every JSON-recovered command outside that allowlist — gets `false`. -/
theorem C2_auto_execute_iff_json_allowlist
    (content cmd : String) (b : Bool)
    (hpc : parseCommandFromResponse content = (cmd, b)) :
    b = true ↔
      (jsonRecoveredCommand content = some cmd ∧
       isSafeInfoCommand (goToLower (goTrimSpace cmd)) = true) := by
  by_cases hc : content == ""
  · rw [parseCommandFromResponse, if_pos hc] at hpc
    obtain ⟨rfl, rfl⟩ := Prod.mk.injEq .. ▸ hpc
    simp [jsonRecoveredCommand, hc]
  · rw [parseCommandFromResponse, if_neg hc] at hpc
    dsimp only at hpc
    rw [jsonRecoveredCommand, if_neg hc]
    dsimp only
    rcases htp : tryParseMap (mdFenceStrip (goTrimSpace content)) with ⟨om, c2⟩
    rw [htp] at hpc
    cases om with
    | none =>
      dsimp only at hpc ⊢
      have hb : b = false := by
        have := textScan_flag c2
        rw [hpc] at this
        exact this
      subst hb
      simp
    | some m =>
      dsimp only at hpc ⊢
      by_cases h0 : extractCmd m ≠ ""
      · rw [if_pos h0] at hpc
        obtain ⟨rfl, rfl⟩ := Prod.mk.injEq .. ▸ hpc
        simp [h0]
      · rw [if_neg h0] at hpc
        have hb : b = false := by
          have := textScan_flag c2
          rw [hpc] at this
          exact this
        subst hb
        rw [not_ne_iff] at h0
        simp [h0]

/-- Witness for C2 at scenario 1's content: the command `who` is
recovered through the JSON path and is on the allowlist, so the flag is
`true` and the equivalence instantiates non-vacuously. -/
theorem C2_witness :
    (true = true ↔
      (jsonRecoveredCommand "\x7b\"command\": \"who\"\x7d" = some "who" ∧
       isSafeInfoCommand (goToLower (goTrimSpace "who")) = true)) :=
  C2_auto_execute_iff_json_allowlist "\x7b\"command\": \"who\"\x7d" "who" true (by decide)

/-! ### Decimal digit lemmas -/

theorem decCh_digit {d : Nat} (h : d < 10) :
    isDigitCh (decCh d) = true ∧ (decCh d).toNat - 48 = d := by
  interval_cases d <;> exact ⟨by decide, by decide⟩

theorem digitsValL_cons (c : Char) (l : List Char) :
    ∀ a : Nat, List.foldl (fun a c => 10 * a + (c.toNat - 48)) a (c :: l)
      = List.foldl (fun a c => 10 * a + (c.toNat - 48)) (10 * a + (c.toNat - 48)) l := by
  intro a
  rfl

theorem foldl_digits_shift (l : List Char) :
    ∀ a : Nat, List.foldl (fun a c => 10 * a + (c.toNat - 48)) a l
      = a * 10 ^ l.length + digitsValL l := by
  induction l with
  | nil => intro a; simp [digitsValL]
  | cons c t ih =>
    intro a
    rw [digitsValL_cons, ih]
    have h2 : digitsValL (c :: t) = (c.toNat - 48) * 10 ^ t.length + digitsValL t := by
      rw [digitsValL, digitsValL_cons, ih]
      simp [digitsValL]
    rw [h2, List.length_cons, pow_succ]
    ring

theorem digitsValL_append (l1 l2 : List Char) :
    digitsValL (l1 ++ l2) = digitsValL l1 * 10 ^ l2.length + digitsValL l2 := by
  rw [digitsValL, List.foldl_append, foldl_digits_shift]
  rfl

theorem digitsValL_lt (l : List Char) (hd : ∀ c ∈ l, isDigitCh c = true) :
    digitsValL l < 10 ^ l.length := by
  induction l with
  | nil => simp [digitsValL]
  | cons c t ih =>
    have hc : c.toNat - 48 < 10 := by
      have := hd c (by simp)
      rw [isDigitCh] at this
      simp only [Bool.and_eq_true, decide_eq_true_eq] at this
      have h1 : 48 ≤ c.toNat := this.1
      have h2 : c.toNat ≤ 57 := this.2
      omega
    have ht := ih (fun x hx => hd x (by simp [hx]))
    have : digitsValL (c :: t) = (c.toNat - 48) * 10 ^ t.length + digitsValL t := by
      have := digitsValL_append [c] t
      simpa [digitsValL] using this
    rw [this]
    have : 10 ^ (c :: t).length = 10 * 10 ^ t.length := by
      simp [List.length_cons]
      ring
    rw [this]
    nlinarith

theorem natPad_length (w n : Nat) : (natPad w n).length = w := by
  induction w generalizing n with
  | zero => rfl
  | succ w ih => simp [natPad, ih]

theorem natPad_digits (w n : Nat) : ∀ c ∈ natPad w n, isDigitCh c = true := by
  induction w generalizing n with
  | zero => simp [natPad]
  | succ w ih =>
    intro c hc
    rw [natPad] at hc
    rcases List.mem_append.mp hc with h | h
    · exact ih (n / 10) c h
    · rw [List.mem_singleton] at h
      subst h
      exact (decCh_digit (Nat.mod_lt _ (by omega))).1

theorem digitsValL_natPad (w n : Nat) (h : n < 10 ^ w) :
    digitsValL (natPad w n) = n := by
  induction w generalizing n with
  | zero => simp at h; simp [natPad, digitsValL, h]
  | succ w ih =>
    rw [natPad, digitsValL_append]
    have hdiv : n / 10 < 10 ^ w := by
      rw [pow_succ] at h
      omega
    rw [ih (n / 10) hdiv]
    simp [digitsValL, (decCh_digit (Nat.mod_lt n (by omega))).2]
    omega

theorem natCharsAux_ok (f : Nat) : ∀ n, n < f →
    natCharsAux f n ≠ [] ∧ (∀ c ∈ natCharsAux f n, isDigitCh c = true) ∧
    digitsValL (natCharsAux f n) = n ∧
    (1 ≤ n → (natCharsAux f n).head? ≠ some '0') := by
  induction f with
  | zero => intro n h; omega
  | succ f ih =>
    intro n h
    by_cases h10 : n < 10
    · refine ⟨by simp [natCharsAux, h10], ?_, ?_, ?_⟩
      · simp only [natCharsAux, if_pos h10]
        intro c hc
        rw [List.mem_singleton] at hc
        subst hc
        exact (decCh_digit h10).1
      · simp only [natCharsAux, if_pos h10]
        have := (decCh_digit h10).2
        simp [digitsValL]
        omega
      · intro hn
        simp only [natCharsAux, if_pos h10, List.head?_cons]
        intro hc
        have : decCh n = '0' := by injection hc
        have : (decCh n).toNat - 48 = 0 := by rw [this]; decide
        rw [(decCh_digit h10).2] at this
        omega
    · have hrec := ih (n / 10) (by omega)
      obtain ⟨hne, hdig, hval, hhd⟩ := hrec
      have heq : natCharsAux (f + 1) n = natCharsAux f (n / 10) ++ [decCh (n % 10)] := by
        simp [natCharsAux, h10]
      refine ⟨by simp [heq, hne], ?_, ?_, ?_⟩
      · intro c hc
        rw [heq] at hc
        rcases List.mem_append.mp hc with hx | hx
        · exact hdig c hx
        · rw [List.mem_singleton] at hx
          subst hx
          exact (decCh_digit (Nat.mod_lt _ (by omega))).1
      · rw [heq, digitsValL_append, hval]
        simp [digitsValL, (decCh_digit (Nat.mod_lt n (by omega))).2]
        omega
      · intro _
        rw [heq]
        cases hcs : natCharsAux f (n / 10) with
        | nil => exact absurd hcs hne
        | cons x t =>
          simp only [List.cons_append, List.head?_cons]
          have := hhd (by omega)
          rw [hcs] at this
          simpa using this

theorem natStrL_ok (n : Nat) :
    natStrL n ≠ [] ∧ (∀ c ∈ natStrL n, isDigitCh c = true) ∧
    digitsValL (natStrL n) = n ∧ (1 ≤ n → (natStrL n).head? ≠ some '0') :=
  natCharsAux_ok (n + 1) n (by omega)

theorem isDigitCh_ne (c x : Char) (hc : isDigitCh c = true) (hx : isDigitCh x = false) :
    c ≠ x := by
  intro h
  rw [h, hx] at hc
  cases hc

theorem parseIntLit_intLitL (i : Int) : parseIntLit (intLitL i) = some i := by
  obtain ⟨hne, hdig, hval, _⟩ := natStrL_ok i.natAbs
  cases hcs : natStrL i.natAbs with
  | nil => exact absurd hcs hne
  | cons c t =>
    have hcd : isDigitCh c = true := hdig c (by rw [hcs]; simp)
    by_cases hi : i < 0
    · rw [intLitL, if_pos hi, hcs, parseIntLit]
      have h1 : (('-' : Char) == '-') = true := by decide
      rw [if_pos h1]
      have h2 : (c :: t).isEmpty = false := by simp
      have h3 : (c :: t).all isDigitCh = true := by
        rw [List.all_eq_true]
        intro x hx
        exact hdig x (by rw [hcs]; exact hx)
      rw [h2, h3]
      simp only [Bool.not_true, Bool.or_false]
      rw [← hcs, hval]
      rw [Int.ofNat_natAbs_of_nonpos (by omega)]
      simp
    · rw [intLitL, if_neg hi, hcs, parseIntLit]
      have h1 : (c == '-') = false := by
        have := isDigitCh_ne c '-' hcd (by decide)
        simpa using this
      have h2 : (c == '+') = false := by
        have := isDigitCh_ne c '+' hcd (by decide)
        simpa using this
      rw [h1, h2]
      simp only [Bool.false_eq_true, if_false]
      have h3 : (c :: t).all isDigitCh = true := by
        rw [List.all_eq_true]
        intro x hx
        exact hdig x (by rw [hcs]; exact hx)
      rw [h3]
      simp only [if_true]
      rw [← hcs, hval]
      rw [Int.natAbs_of_nonneg (by omega)]

/-! ### String escape round-trip -/

theorem hexDigitVal_hexCh {n : Nat} (h : n < 16) : hexDigitVal (hexCh n) = some n := by
  interval_cases n <;> decide

theorem strBody_quoteChar (c : Char) (rest : List Char) :
    strBody (quoteCharL c ++ rest) = (strBody rest).map (fun p => (c :: p.1, p.2)) := by
  rw [quoteCharL]
  split_ifs with h1 h2 h3 h4 h5 h6 h7 h8
  · rw [beq_iff_eq] at h1; subst h1; rfl
  · rw [beq_iff_eq] at h2; subst h2; rfl
  · rw [beq_iff_eq] at h3; subst h3; rfl
  · rw [beq_iff_eq] at h4; subst h4; rfl
  · rw [beq_iff_eq] at h5; subst h5; rfl
  · -- the `\u00xx` control and HTML escapes
    have hlt : c.toNat < 256 := by
      rcases h6 with h | h | h | h
      · omega
      · rw [beq_iff_eq] at h; subst h; decide
      · rw [beq_iff_eq] at h; subst h; decide
      · rw [beq_iff_eq] at h; subst h; decide
    have hhi : c.toNat / 16 < 16 := by omega
    have hlo : c.toNat % 16 < 16 := by omega
    have hq : hexQuad '0' '0' (hexCh (c.toNat / 16)) (hexCh (c.toNat % 16)) = some c.toNat := by
      rw [hexQuad, hexDigitVal_hexCh hhi, hexDigitVal_hexCh hlo]
      show some (((0 * 16 + 0) * 16 + c.toNat / 16) * 16 + c.toNat % 16) = some c.toNat
      congr 1
      omega
    have hstep : ∀ (a b : Char) (r : List Char),
        strBody ('\\' :: 'u' :: '0' :: '0' :: a :: b :: r) =
          (match hexQuad '0' '0' a b with
           | none => none
           | some v => (strBody r).map (fun p => (uChar v :: p.1, p.2))) :=
      fun a b r => rfl
    simp only [List.cons_append, List.nil_append]
    rw [hstep, hq]
    have hrange : c.toNat < 0xD800 ∨ 0xE000 ≤ c.toNat := Or.inl (by omega)
    have hu : uChar c.toNat = c := by rw [uChar, if_pos hrange, Char.ofNat_toNat]
    simp only [hu]
  · rw [beq_iff_eq] at h7; subst h7; rfl
  · rw [beq_iff_eq] at h8; subst h8; rfl
  · -- plain character
    have hq : c ≠ '"' := by simpa using h1
    have hb : c ≠ '\\' := by simpa using h2
    have hctl : ¬(c.toNat < 0x20) := fun h => h6 (Or.inl h)
    simp only [List.cons_append, List.nil_append]
    rw [strBody]
    · rw [if_neg hctl]
    all_goals intros
    all_goals simp_all

theorem strBody_quoteBody (cs : List Char) : ∀ rest : List Char,
    strBody (quoteBodyL cs ++ '"' :: rest) = some (cs, rest) := by
  induction cs with
  | nil => intro rest; rfl
  | cons c t ih =>
    intro rest
    have h : quoteBodyL (c :: t) = quoteCharL c ++ quoteBodyL t := by
      simp [quoteBodyL]
    rw [h, List.append_assoc, strBody_quoteChar, ih]
    rfl

theorem wsDrop_cons_of (c : Char) (l : List Char) (h : isJsonWs c = false) :
    wsDrop (c :: l) = c :: l := by
  simp [wsDrop, List.dropWhile_cons, h]

theorem parseJ_quoteStr (f : Nat) (k : List Char) (rest : List Char) :
    parseJ (f + 1) JPhase.value (quoteStrL k ++ rest) =
      some (Json.str (String.mk k), rest) := by
  have h : quoteStrL k ++ rest = '"' :: (quoteBodyL k ++ '"' :: rest) := by
    simp [quoteStrL]
  rw [h, parseJ, wsDrop_cons_of _ _ (by decide)]
  show Option.map (fun p => (Json.str (String.mk p.1), p.2))
    (strBody (quoteBodyL k ++ '"' :: rest)) = some (Json.str (String.mk k), rest)
  rw [strBody_quoteBody]
  rfl

theorem parseJ_boolLit (f : Nat) (b : Bool) (rest : List Char) :
    parseJ (f + 1) JPhase.value (encodeScalar (JScalar.bool b) ++ rest) =
      some (Json.bool b, rest) := by
  cases b <;>
    (rw [encodeScalar, parseJ]
     simp only [List.cons_append, List.nil_append]
     rw [wsDrop_cons_of _ _ (by decide)]
     rfl)

/-! ### Number literal round-trip -/

theorem NumBoundary_head (rest : List Char) (hb : NumBoundary rest) :
    ∃ x xs, rest = x :: xs ∧ (x = ',' ∨ x = '\x7d') := by
  rcases hb with h | h <;>
    (cases rest with
     | nil => cases h
     | cons x xs =>
       rw [List.head?_cons, Option.some.injEq] at h
       exact ⟨x, xs, rfl, by rw [h]; simp⟩)

theorem digit_run_split (ds : List Char) (hds : ∀ c ∈ ds, isDigitCh c = true)
    (rest : List Char) (hrest : ∀ x ∈ rest.head?, isDigitCh x = false) :
    (ds ++ rest).takeWhile isDigitCh = ds ∧ (ds ++ rest).dropWhile isDigitCh = rest := by
  induction ds with
  | nil =>
    cases rest with
    | nil => exact ⟨rfl, rfl⟩
    | cons x xs =>
      have hx := hrest x (by rw [List.head?_cons]; simp)
      simp [List.takeWhile_cons, List.dropWhile_cons, hx]
  | cons c t ih =>
    have hc := hds c (by simp)
    obtain ⟨h1, h2⟩ := ih (fun x hx => hds x (by simp [hx]))
    simp [List.takeWhile_cons, List.dropWhile_cons, hc, h1, h2]

theorem numExp_stop (rest : List Char) (hb : NumBoundary rest) :
    numExp rest = some ([], rest) := by
  obtain ⟨x, xs, rfl, hx⟩ := NumBoundary_head rest hb
  rcases hx with rfl | rfl <;> rfl

theorem numFrac_stop (rest : List Char) (hb : NumBoundary rest) :
    numFrac rest = some ([], rest) := by
  obtain ⟨x, xs, rfl, hx⟩ := NumBoundary_head rest hb
  have hstep : numFrac (x :: xs) = numExp (x :: xs) := by
    rcases hx with rfl | rfl <;> rfl
  rw [hstep, numExp_stop _ hb]

theorem numBody_natStr (n : Nat) (rest : List Char) (hb : NumBoundary rest) :
    numBody (natStrL n ++ rest) = some (natStrL n, rest) := by
  obtain ⟨hne, hdig, _, hhd⟩ := natStrL_ok n
  obtain ⟨x, xs, hre, hx⟩ := NumBoundary_head rest hb
  have hxd : ∀ y ∈ rest.head?, isDigitCh y = false := by
    intro y hy
    rw [hre, List.head?_cons, Option.mem_def, Option.some.injEq] at hy
    subst hy
    rcases hx with rfl | rfl <;> decide
  by_cases h0 : n = 0
  · subst h0
    rw [show natStrL 0 = ['0'] from rfl]
    rw [List.cons_append, numBody, if_pos (by decide), List.nil_append,
      numFrac_stop rest hb]
    rfl
  · obtain ⟨c, t, hcs⟩ : ∃ c t, natStrL n = c :: t := by
      cases h : natStrL n with
      | nil => exact absurd h hne
      | cons c t => exact ⟨c, t, rfl⟩
    · have hcd : isDigitCh c = true := hdig c (by rw [hcs]; simp)
      have hc0 : (c == '0') = false := by
        have := hhd (by omega)
        rw [hcs, List.head?_cons] at this
        rcases h : c == '0' with _ | _
        · rfl
        · rw [beq_iff_eq] at h
          subst h
          simp at this
      obtain ⟨htake, hdrop⟩ := digit_run_split (c :: t)
        (fun y hy => hdig y (by rw [hcs]; exact hy)) rest hxd
      rw [hcs, List.cons_append, numBody, hc0]
      simp only [Bool.false_eq_true, if_false, hcd, if_true]
      rw [show c :: (t ++ rest) = (c :: t) ++ rest from rfl, htake, hdrop,
        numFrac_stop rest hb]
      simp

theorem numLit_intLitL (i : Int) (rest : List Char) (hb : NumBoundary rest) :
    numLit (intLitL i ++ rest) = some (intLitL i, rest) := by
  obtain ⟨hne, hdig, _, _⟩ := natStrL_ok i.natAbs
  by_cases hi : i < 0
  · rw [intLitL, if_pos hi, List.cons_append, numLit, numBody_natStr _ _ hb]
    rfl
  · rw [intLitL, if_neg hi]
    obtain ⟨c, t, hcs⟩ : ∃ c t, natStrL i.natAbs = c :: t := by
      cases h : natStrL i.natAbs with
      | nil => exact absurd h hne
      | cons c t => exact ⟨c, t, rfl⟩
    have hcd : isDigitCh c = true := hdig c (by rw [hcs]; simp)
    have hcm : c ≠ '-' := isDigitCh_ne c '-' hcd (by decide)
    rw [hcs, List.cons_append, numLit]
    · rw [← List.cons_append, ← hcs, numBody_natStr _ _ hb, hcs]
    · intro r hcr
      exact hcm (by injection hcr)

theorem digit_head_excl (c : Char) (h : isDigitCh c = true) :
    isJsonWs c = false ∧ c ≠ 'n' ∧ c ≠ 't' ∧ c ≠ 'f' ∧ c ≠ '"' ∧
    c ≠ '\x7b' ∧ c ≠ '[' := by
  refine ⟨?_, isDigitCh_ne c 'n' h (by decide), isDigitCh_ne c 't' h (by decide),
    isDigitCh_ne c 'f' h (by decide), isDigitCh_ne c '"' h (by decide),
    isDigitCh_ne c '\x7b' h (by decide), isDigitCh_ne c '[' h (by decide)⟩
  have h1 := isDigitCh_ne c ' ' h (by decide)
  have h2 := isDigitCh_ne c '\t' h (by decide)
  have h3 := isDigitCh_ne c '\n' h (by decide)
  have h4 := isDigitCh_ne c '\r' h (by decide)
  simp [isJsonWs, h1, h2, h3, h4]

theorem parseJ_value_num_head (f : Nat) (c : Char) (X : List Char)
    (hws : isJsonWs c = false) (hn : c ≠ 'n') (ht : c ≠ 't') (hf : c ≠ 'f')
    (hq : c ≠ '"') (hob : c ≠ '\x7b') (har : c ≠ '[')
    (hnum : (c == '-') = true ∨ isDigitCh c = true) :
    parseJ (f + 1) JPhase.value (c :: X) =
      (numLit (c :: X)).map (fun p => (Json.num (String.mk p.1), p.2)) := by
  rw [parseJ, wsDrop_cons_of _ _ hws]
  split
  all_goals first
    | (rename_i heq
       rw [List.cons.injEq] at heq
       obtain ⟨rfl, rfl⟩ := heq
       rw [if_pos hnum])
    | (rename_i heq; exfalso; simp_all)

theorem parseJ_numInt (f : Nat) (i : Int) (rest : List Char) (hb : NumBoundary rest) :
    parseJ (f + 1) JPhase.value (intLitL i ++ rest) =
      some (Json.num (String.mk (intLitL i)), rest) := by
  obtain ⟨hne, hdig, _, _⟩ := natStrL_ok i.natAbs
  by_cases hi : i < 0
  · have hsh : intLitL i ++ rest = '-' :: (natStrL i.natAbs ++ rest) := by
      rw [intLitL, if_pos hi]
      rfl
    rw [hsh, parseJ_value_num_head f '-' _ (by decide) (by decide) (by decide)
      (by decide) (by decide) (by decide) (by decide) (Or.inl (by decide)),
      ← hsh, numLit_intLitL i rest hb]
    rfl
  · obtain ⟨c, t, hcs⟩ : ∃ c t, natStrL i.natAbs = c :: t := by
      cases h : natStrL i.natAbs with
      | nil => exact absurd h hne
      | cons c t => exact ⟨c, t, rfl⟩
    have hcd : isDigitCh c = true := hdig c (by rw [hcs]; simp)
    obtain ⟨hws, hn, ht, hf, hq, hob, har⟩ := digit_head_excl c hcd
    have hsh : intLitL i ++ rest = c :: (t ++ rest) := by
      rw [intLitL, if_neg hi, hcs]
      rfl
    rw [hsh, parseJ_value_num_head f c _ hws hn ht hf hq hob har (Or.inr hcd),
      ← hsh, numLit_intLitL i rest hb]
    rfl

/-! ### Object member chain round-trip -/

theorem quoteStrL_append (k X : List Char) :
    quoteStrL k ++ X = '"' :: (quoteBodyL k ++ '"' :: X) := by
  simp [quoteStrL]

theorem parseJ_members_step (f1 : Nat) (B : List Char) :
    parseJ (f1 + 1) JPhase.members ('"' :: B) =
      (match strBody B with
       | some (k, r1) =>
         (match wsDrop r1 with
          | ':' :: r2 =>
            (match parseJ f1 JPhase.value r2 with
             | some (v, r3) =>
               (match wsDrop r3 with
                | ',' :: r4 =>
                  (match parseJ f1 JPhase.members r4 with
                   | some (Json.obj kvs, r5) => some (Json.obj ((String.mk k, v) :: kvs), r5)
                   | _ => none)
                | '\x7d' :: r4 => some (Json.obj [(String.mk k, v)], r4)
                | _ => none)
             | none => none)
          | _ => none)
       | none => none) := by
  rw [parseJ, wsDrop_cons_of _ _ (by decide)]
  rfl

theorem parseJ_members_colon (f1 : Nat) (kd : List Char) (v : JScalar) (D : List Char) :
    parseJ (f1 + 1) JPhase.members
        ('"' :: (quoteBodyL kd ++ '"' :: ':' :: (encodeScalar v ++ D))) =
      (match parseJ f1 JPhase.value (encodeScalar v ++ D) with
       | some (v1, r3) =>
         (match wsDrop r3 with
          | ',' :: r4 =>
            (match parseJ f1 JPhase.members r4 with
             | some (Json.obj kvs, r5) => some (Json.obj ((String.mk kd, v1) :: kvs), r5)
             | _ => none)
          | '\x7d' :: r4 => some (Json.obj [(String.mk kd, v1)], r4)
          | _ => none)
       | none => none) := by
  rw [parseJ_members_step, strBody_quoteBody]
  rfl

theorem parseJ_members_last (f1 g : Nat) (hf : f1 = g + 1) (kd : List Char) (v : JScalar)
    (rest : List Char)
    (hval : ∀ (g2 : Nat) (r2 : List Char), NumBoundary r2 →
      parseJ (g2 + 1) JPhase.value (encodeScalar v ++ r2) = some (v.toJson, r2)) :
    parseJ (f1 + 1) JPhase.members
        ('"' :: (quoteBodyL kd ++ '"' :: ':' :: (encodeScalar v ++ '\x7d' :: rest))) =
      some (Json.obj [(String.mk kd, v.toJson)], rest) := by
  subst hf
  rw [parseJ_members_colon, hval g ('\x7d' :: rest) (Or.inr (by simp))]
  rfl

theorem parseJ_members_more (f1 g : Nat) (hf : f1 = g + 1) (kd : List Char) (v : JScalar)
    (R : List Char)
    (hval : ∀ (g2 : Nat) (r2 : List Char), NumBoundary r2 →
      parseJ (g2 + 1) JPhase.value (encodeScalar v ++ r2) = some (v.toJson, r2)) :
    parseJ (f1 + 1) JPhase.members
        ('"' :: (quoteBodyL kd ++ '"' :: ':' :: (encodeScalar v ++ ',' :: R))) =
      (match parseJ f1 JPhase.members R with
       | some (Json.obj kvs, r5) => some (Json.obj ((String.mk kd, v.toJson) :: kvs), r5)
       | _ => none) := by
  subst hf
  rw [parseJ_members_colon, hval g (',' :: R) (Or.inl (by simp))]
  rfl

theorem parseJ_members_chain (kvs : List (String × JScalar)) :
    ∀ (f : Nat) (rest : List Char),
      kvs ≠ [] → 2 * kvs.length ≤ f →
      (∀ kv ∈ kvs, ∀ (g2 : Nat) (r2 : List Char), NumBoundary r2 →
        parseJ (g2 + 1) JPhase.value (encodeScalar kv.2 ++ r2) = some (kv.2.toJson, r2)) →
      parseJ f JPhase.members (encodeMembers kvs ++ '\x7d' :: rest) =
        some (Json.obj (kvs.map (fun kv => (kv.1, kv.2.toJson))), rest) := by
  induction kvs with
  | nil =>
    intro f rest hne _ _
    exact absurd rfl hne
  | cons kv tail ih =>
    intro f rest _ hf hvals
    obtain ⟨k, v⟩ := kv
    obtain ⟨f1, rfl⟩ : ∃ f1, f = f1 + 1 := by
      cases f with
      | zero => rw [List.length_cons] at hf; omega
      | succ f1 => exact ⟨f1, rfl⟩
    obtain ⟨g, hg⟩ : ∃ g, f1 = g + 1 := by
      cases f1 with
      | zero => rw [List.length_cons] at hf; omega
      | succ g => exact ⟨g, rfl⟩
    have hval1 : ∀ (g2 : Nat) (r2 : List Char), NumBoundary r2 →
        parseJ (g2 + 1) JPhase.value (encodeScalar v ++ r2) = some (v.toJson, r2) :=
      fun g2 r2 h2 => hvals (k, v) (by simp) g2 r2 h2
    cases tail with
    | nil =>
      have hshape : encodeMembers [(k, v)] ++ '\x7d' :: rest
          = '"' :: (quoteBodyL k.data ++ '"' :: ':' :: (encodeScalar v ++ '\x7d' :: rest)) := by
        show joinSepL ',' [quoteStrL k.data ++ ':' :: encodeScalar v] ++ '\x7d' :: rest = _
        rw [joinSepL, quoteStrL_append]
        simp
      rw [hshape, parseJ_members_last f1 g hg k.data v rest hval1]
      rfl
    | cons kv2 tail2 =>
      have hshape : encodeMembers ((k, v) :: kv2 :: tail2) ++ '\x7d' :: rest
          = '"' :: (quoteBodyL k.data ++ '"' :: ':' ::
              (encodeScalar v ++ ',' :: (encodeMembers (kv2 :: tail2) ++ '\x7d' :: rest))) := by
        show (quoteStrL k.data ++ ':' :: encodeScalar v) ++
            ',' :: joinSepL ',' ((kv2 :: tail2).map
              (fun kv => quoteStrL kv.1.data ++ ':' :: encodeScalar kv.2)) ++ '\x7d' :: rest = _
        rw [quoteStrL_append]
        simp [encodeMembers]
      rw [hshape, parseJ_members_more f1 g hg k.data v _ hval1,
        ih f1 rest (by simp) (by simp only [List.length_cons] at hf ⊢; omega)
          (fun kv2 hm => hvals kv2 (List.mem_cons_of_mem _ hm))]
      rfl

/-! ### Parsing a whole marshalled log entry -/

theorem scalar_val_str (s : String) : ∀ (g2 : Nat) (r2 : List Char), NumBoundary r2 →
    parseJ (g2 + 1) JPhase.value (encodeScalar (JScalar.str s) ++ r2) =
      some ((JScalar.str s).toJson, r2) := by
  intro g2 r2 _
  rw [show encodeScalar (JScalar.str s) = quoteStrL s.data from rfl, parseJ_quoteStr]
  rfl

theorem scalar_val_bool (b : Bool) : ∀ (g2 : Nat) (r2 : List Char), NumBoundary r2 →
    parseJ (g2 + 1) JPhase.value (encodeScalar (JScalar.bool b) ++ r2) =
      some ((JScalar.bool b).toJson, r2) := by
  intro g2 r2 _
  rw [parseJ_boolLit]
  rfl

theorem scalar_val_int (i : Int) : ∀ (g2 : Nat) (r2 : List Char), NumBoundary r2 →
    parseJ (g2 + 1) JPhase.value (encodeScalar (JScalar.num (intLitL i)) ++ r2) =
      some ((JScalar.num (intLitL i)).toJson, r2) := by
  intro g2 r2 h2
  rw [show encodeScalar (JScalar.num (intLitL i)) = intLitL i from rfl, parseJ_numInt g2 i r2 h2]
  rfl

theorem logFields_ne_nil (e : ToolCallLog) : logFields e ≠ [] := by
  simp [logFields]

theorem logFields_length_le (e : ToolCallLog) : (logFields e).length ≤ 10 := by
  rw [logFields]
  split_ifs <;> simp

theorem logFields_vals (e : ToolCallLog) :
    ∀ kv ∈ logFields e, ∀ (g2 : Nat) (r2 : List Char), NumBoundary r2 →
      parseJ (g2 + 1) JPhase.value (encodeScalar kv.2 ++ r2) = some (kv.2.toJson, r2) := by
  rw [logFields]
  refine List.forall_mem_append.mpr ⟨List.forall_mem_append.mpr
    ⟨List.forall_mem_append.mpr ⟨List.forall_mem_append.mpr ⟨?_, ?_⟩, ?_⟩, ?_⟩, ?_⟩
  · intro kv hm
    simp only [List.mem_cons, List.not_mem_nil, or_false] at hm
    rcases hm with rfl | rfl | rfl | rfl | rfl | rfl <;> exact scalar_val_str _
  · intro kv hm
    split_ifs at hm
    · simp at hm
    · rw [List.mem_singleton] at hm
      subst hm
      exact scalar_val_str _
  · intro kv hm
    split_ifs at hm
    · simp at hm
    · rw [List.mem_singleton] at hm
      subst hm
      exact scalar_val_str _
  · intro kv hm
    rw [List.mem_singleton] at hm
    subst hm
    exact scalar_val_bool _
  · intro kv hm
    split_ifs at hm
    · simp at hm
    · rw [List.mem_singleton] at hm
      subst hm
      exact scalar_val_int _

theorem parseJ_value_obj_step (f : Nat) (B : List Char) :
    parseJ (f + 1) JPhase.value ('\x7b' :: B) =
      (match wsDrop B with
       | '\x7d' :: r2 => some (Json.obj [], r2)
       | _ => parseJ f JPhase.members B) := by
  rw [parseJ, wsDrop_cons_of _ _ (by decide)]
  rfl

theorem encodeMembers_shape (kv : String × JScalar) (tl : List (String × JScalar)) :
    ∃ t, encodeMembers (kv :: tl) = '"' :: t := by
  cases tl with
  | nil =>
    refine ⟨quoteBodyL kv.1.data ++ '"' :: ':' :: encodeScalar kv.2, ?_⟩
    show joinSepL ',' [quoteStrL kv.1.data ++ ':' :: encodeScalar kv.2] = _
    rw [joinSepL, quoteStrL_append]
  | cons kv2 tl2 =>
    refine ⟨quoteBodyL kv.1.data ++ '"' :: ':' :: encodeScalar kv.2 ++
      ',' :: joinSepL ',' ((kv2 :: tl2).map
        (fun kv => quoteStrL kv.1.data ++ ':' :: encodeScalar kv.2)), ?_⟩
    show (quoteStrL kv.1.data ++ ':' :: encodeScalar kv.2) ++ ',' :: joinSepL ',' _ = _
    rw [quoteStrL_append]
    simp

theorem parseJ_value_obj (f : Nat) (kvs : List (String × JScalar)) (rest : List Char)
    (hne : kvs ≠ []) (hf : 2 * kvs.length ≤ f)
    (hvals : ∀ kv ∈ kvs, ∀ (g2 : Nat) (r2 : List Char), NumBoundary r2 →
      parseJ (g2 + 1) JPhase.value (encodeScalar kv.2 ++ r2) = some (kv.2.toJson, r2)) :
    parseJ (f + 1) JPhase.value ('\x7b' :: (encodeMembers kvs ++ '\x7d' :: rest)) =
      some (Json.obj (kvs.map (fun kv => (kv.1, kv.2.toJson))), rest) := by
  rw [parseJ_value_obj_step]
  obtain ⟨kv, tl, rfl⟩ : ∃ kv tl, kvs = kv :: tl := by
    cases kvs with
    | nil => exact absurd rfl hne
    | cons kv tl => exact ⟨kv, tl, rfl⟩
  obtain ⟨t, ht⟩ := encodeMembers_shape kv tl
  rw [show encodeMembers (kv :: tl) ++ '\x7d' :: rest = '"' :: (t ++ '\x7d' :: rest) by
      rw [ht]; rfl,
    wsDrop_cons_of _ _ (by decide),
    show (match ('"' :: (t ++ '\x7d' :: rest) : List Char) with
       | '\x7d' :: r2 => some (Json.obj [], r2)
       | _ => parseJ f JPhase.members ('"' :: (t ++ '\x7d' :: rest))) =
      parseJ f JPhase.members ('"' :: (t ++ '\x7d' :: rest)) from rfl,
    show ('"' :: (t ++ '\x7d' :: rest) : List Char) = encodeMembers (kv :: tl) ++ '\x7d' :: rest by
      rw [ht]; rfl,
    parseJ_members_chain (kv :: tl) f rest hne hf hvals]

theorem goParseJson_marshal (e : ToolCallLog) :
    goParseJson (marshalToolCallLog e) =
      some (Json.obj ((logFields e).map (fun kv => (kv.1, kv.2.toJson)))) := by
  rw [goParseJson]
  have hdata : (marshalToolCallLog e).data =
      '\x7b' :: (encodeMembers (logFields e) ++ ['\x7d']) := rfl
  rw [hdata]
  have hfuel : 2 * (logFields e).length ≤
      ('\x7b' :: (encodeMembers (logFields e) ++ ['\x7d'])).length + 63 := by
    have := logFields_length_le e
    omega
  rw [show ('\x7b' :: (encodeMembers (logFields e) ++ ['\x7d'])).length + 64 =
      (('\x7b' :: (encodeMembers (logFields e) ++ ['\x7d'])).length + 63) + 1 from rfl,
    parseJ_value_obj _ (logFields e) [] (logFields_ne_nil e) hfuel (logFields_vals e)]
  rfl

/-! ### RFC 3339 round-trip -/

theorem natPad2_eq (n : Nat) : natPad 2 n = [decCh (n / 10 % 10), decCh (n % 10)] := rfl

theorem natPad4_eq (n : Nat) :
    natPad 4 n = [decCh (n / 10 / 10 / 10 % 10), decCh (n / 10 / 10 % 10),
      decCh (n / 10 % 10), decCh (n % 10)] := rfl

theorem parse2_natPad (n : Nat) (h : n < 100) (rest : List Char) :
    parse2 (natPad 2 n ++ rest) = some (n, rest) := by
  rw [natPad2_eq]
  have h1 := decCh_digit (Nat.mod_lt (n / 10) (by omega))
  have h2 := decCh_digit (Nat.mod_lt n (by omega))
  show parse2 (decCh (n / 10 % 10) :: decCh (n % 10) :: rest) = some (n, rest)
  rw [parse2, h1.1, h2.1]
  simp only [Bool.and_self, if_true]
  have hv : digitsValL [decCh (n / 10 % 10), decCh (n % 10)] =
      10 * (10 * 0 + ((decCh (n / 10 % 10)).toNat - 48)) + ((decCh (n % 10)).toNat - 48) := rfl
  rw [hv, h1.2, h2.2, show 10 * (10 * 0 + n / 10 % 10) + n % 10 = n by omega]

theorem parse4_natPad (n : Nat) (h : n < 10000) (rest : List Char) :
    parse4 (natPad 4 n ++ rest) = some (n, rest) := by
  rw [natPad4_eq]
  have h1 := decCh_digit (Nat.mod_lt (n / 10 / 10 / 10) (by omega))
  have h2 := decCh_digit (Nat.mod_lt (n / 10 / 10) (by omega))
  have h3 := decCh_digit (Nat.mod_lt (n / 10) (by omega))
  have h4 := decCh_digit (Nat.mod_lt n (by omega))
  show parse4 (decCh (n / 10 / 10 / 10 % 10) :: decCh (n / 10 / 10 % 10) ::
    decCh (n / 10 % 10) :: decCh (n % 10) :: rest) = some (n, rest)
  rw [parse4, h1.1, h2.1, h3.1, h4.1]
  simp only [Bool.and_self, if_true]
  have hv : digitsValL [decCh (n / 10 / 10 / 10 % 10), decCh (n / 10 / 10 % 10),
      decCh (n / 10 % 10), decCh (n % 10)] =
      10 * (10 * (10 * (10 * 0 + ((decCh (n / 10 / 10 / 10 % 10)).toNat - 48))
        + ((decCh (n / 10 / 10 % 10)).toNat - 48))
        + ((decCh (n / 10 % 10)).toNat - 48)) + ((decCh (n % 10)).toNat - 48) := rfl
  rw [hv, h1.2, h2.2, h3.2, h4.2,
    show 10 * (10 * (10 * (10 * 0 + n / 10 / 10 / 10 % 10) + n / 10 / 10 % 10)
      + n / 10 % 10) + n % 10 = n by omega]

theorem expectCh_cons (c : Char) (r : List Char) : expectCh c (c :: r) = some r := by
  simp [expectCh]

theorem digitsValL_all_zero (l : List Char) (h : ∀ c ∈ l, c = '0') :
    digitsValL l = 0 := by
  induction l with
  | nil => rfl
  | cons c t ih =>
    have hc : c = '0' := h c (by simp)
    subst hc
    rw [digitsValL, digitsValL_cons]
    show List.foldl _ (10 * 0 + ('0'.toNat - 48)) t = 0
    rw [show 10 * 0 + ('0'.toNat - 48) = 0 by decide]
    exact ih (fun x hx => h x (by simp [hx]))

theorem dropTrailZeros_restore (l : List Char) :
    dropTrailZeros l ++ List.replicate (l.length - (dropTrailZeros l).length) '0' = l := by
  rw [dropTrailZeros]
  set k := l.reverse.takeWhile (· == '0') with hk
  set d := l.reverse.dropWhile (· == '0') with hd
  have hsplit : k ++ d = l.reverse := List.takeWhile_append_dropWhile (· == '0') l.reverse
  have htz : ∀ c ∈ k, c = '0' := by
    intro c hc
    have := List.mem_takeWhile_imp hc
    rwa [beq_iff_eq] at this
  have hrep : k = List.replicate k.length '0' := List.eq_replicate_of_mem htz
  have hlen : l.length - d.reverse.length = k.length := by
    have := congrArg List.length hsplit
    rw [List.length_append, List.length_reverse] at this
    rw [List.length_reverse]
    omega
  rw [hlen]
  conv_rhs => rw [show l = d.reverse ++ k.reverse from by
    rw [← List.reverse_append, hsplit, List.reverse_reverse]]
  congr 1
  conv_rhs => rw [hrep]
  rw [List.reverse_replicate]

theorem dropTrailZeros_digits (l : List Char) (h : ∀ c ∈ l, isDigitCh c = true) :
    ∀ c ∈ dropTrailZeros l, isDigitCh c = true := by
  intro c hc
  rw [dropTrailZeros, List.mem_reverse] at hc
  exact h c (by
    have := (List.dropWhile_sublist (· == '0')).mem hc
    rwa [List.mem_reverse] at this)

theorem dropTrailZeros_length_le (l : List Char) : (dropTrailZeros l).length ≤ l.length := by
  rw [dropTrailZeros, List.length_reverse]
  have := (List.dropWhile_sublist (α := Char) (· == '0') (l := l.reverse)).length_le
  rwa [List.length_reverse] at this

theorem parseFrac_main (ns : Nat) (h : ns < 1000000000) (x : Char) (xs : List Char)
    (hx : x = 'Z' ∨ x = '+' ∨ x = '-') :
    parseFrac (fracPart ns ++ x :: xs) = some (ns, x :: xs) := by
  by_cases h0 : ns = 0
  · subst h0
    rw [show fracPart 0 = [] from rfl, List.nil_append]
    rcases hx with rfl | rfl | rfl <;> rfl
  · rw [fracPart, if_neg (by simp [h0])]
    have hd9 := natPad_digits 9 ns
    have hdd := dropTrailZeros_digits (natPad 9 ns) hd9
    have hlen : (dropTrailZeros (natPad 9 ns)).length ≤ 9 := by
      have := dropTrailZeros_length_le (natPad 9 ns)
      rwa [natPad_length] at this
    have hne : dropTrailZeros (natPad 9 ns) ≠ [] := by
      intro hnil
      have hres := dropTrailZeros_restore (natPad 9 ns)
      rw [hnil, List.nil_append, List.length_nil, Nat.sub_zero] at hres
      have hz : digitsValL (natPad 9 ns) = 0 := by
        rw [← hres]
        exact digitsValL_all_zero _ (fun c hc => (List.mem_replicate.mp hc).2)
      rw [digitsValL_natPad 9 ns (by omega)] at hz
      exact h0 hz
    have hxd : ∀ y ∈ (x :: xs).head?, isDigitCh y = false := by
      intro y hy
      rw [List.head?_cons, Option.mem_def, Option.some.injEq] at hy
      subst hy
      rcases hx with rfl | rfl | rfl <;> decide
    obtain ⟨htake, hdrop⟩ := digit_run_split (dropTrailZeros (natPad 9 ns)) hdd (x :: xs) hxd
    obtain ⟨d, ds1, hds⟩ : ∃ d ds1, dropTrailZeros (natPad 9 ns) = d :: ds1 := by
      cases hq : dropTrailZeros (natPad 9 ns) with
      | nil => exact absurd hq hne
      | cons d ds1 => exact ⟨d, ds1, rfl⟩
    rw [List.cons_append, parseFrac, htake, hds]
    dsimp only
    rw [← hds, if_pos hlen,
      show (9 : Nat) - (dropTrailZeros (natPad 9 ns)).length =
        (natPad 9 ns).length - (dropTrailZeros (natPad 9 ns)).length by rw [natPad_length],
      dropTrailZeros_restore (natPad 9 ns), digitsValL_natPad 9 ns h, hdrop]
  
theorem tzPart_head (off : Int) :
    ∃ x xs, tzPart off = x :: xs ∧ (x = 'Z' ∨ x = '+' ∨ x = '-') := by
  rw [tzPart]
  split_ifs with h1 h2
  · exact ⟨'Z', [], rfl, Or.inl rfl⟩
  · exact ⟨'-', _, rfl, Or.inr (Or.inr rfl)⟩
  · exact ⟨'+', _, rfl, Or.inr (Or.inl rfl)⟩

theorem parseTz_tzPart (off : Int) (hoff : off.natAbs ≤ 23 * 60 + 59) :
    parseTz (tzPart off) = some (off, []) := by
  by_cases h0 : off = 0
  · subst h0
    rfl
  · have habs : ((off.natAbs / 60 : Nat) : Int) * 60 + ((off.natAbs % 60 : Nat) : Int) =
        ((off.natAbs : Nat) : Int) := by
      have h1 : off.natAbs / 60 * 60 + off.natAbs % 60 = off.natAbs := by omega
      exact_mod_cast h1
    by_cases hneg : off < 0
    · rw [tzPart, if_neg (by simp [h0]), if_pos hneg]
      have hstep : ∀ R : List Char, parseTz ('-' :: R) =
          (match parse2 R with
           | some (hh, r1) =>
             (match expectCh ':' r1 with
              | some r2 =>
                (match parse2 r2 with
                 | some (mm, r3) =>
                   if hh ≤ 23 ∧ mm ≤ 59 then some (-(hh * 60 + mm : Int), r3) else none
                 | none => none)
              | none => none)
           | none => none) := fun R => rfl
      rw [hstep, parse2_natPad (off.natAbs / 60) (by omega)]
      dsimp only
      rw [expectCh_cons]
      dsimp only
      rw [← List.append_nil (natPad 2 (off.natAbs % 60)),
        parse2_natPad (off.natAbs % 60) (by omega)]
      dsimp only
      rw [if_pos ⟨by omega, by omega⟩]
      have hval : -(((off.natAbs / 60 : Nat) : Int) * 60 + ((off.natAbs % 60 : Nat) : Int)) =
          off := by
        rw [habs, Int.ofNat_natAbs_of_nonpos (by omega)]
        ring
      rw [hval]
    · rw [tzPart, if_neg (by simp [h0]), if_neg hneg]
      have hstep : ∀ R : List Char, parseTz ('+' :: R) =
          (match parse2 R with
           | some (hh, r1) =>
             (match expectCh ':' r1 with
              | some r2 =>
                (match parse2 r2 with
                 | some (mm, r3) =>
                   if hh ≤ 23 ∧ mm ≤ 59 then some ((hh * 60 + mm : Int), r3) else none
                 | none => none)
              | none => none)
           | none => none) := fun R => rfl
      rw [hstep, parse2_natPad (off.natAbs / 60) (by omega)]
      dsimp only
      rw [expectCh_cons]
      dsimp only
      rw [← List.append_nil (natPad 2 (off.natAbs % 60)),
        parse2_natPad (off.natAbs % 60) (by omega)]
      dsimp only
      rw [if_pos ⟨by omega, by omega⟩]
      have hval : (((off.natAbs / 60 : Nat) : Int) * 60 + ((off.natAbs % 60 : Nat) : Int)) =
          off := by
        rw [habs, Int.natAbs_of_nonneg (by omega)]
      rw [hval]

theorem parseRFC3339_fmt (t : GoTime) (h : t.valid) :
    parseRFC3339 (String.mk (fmtRFC3339 t)) = some t := by
  obtain ⟨y, mo, dd, hh, mi, ss, ns, off⟩ := t
  obtain ⟨h1, h2, h3, h4, h5, h6, h7, h8, h9, h10⟩ := h
  dsimp only at h1 h2 h3 h4 h5 h6 h7 h8 h9 h10
  obtain ⟨x, xs, htz, hx⟩ := tzPart_head off
  simp only [parseRFC3339, fmtRFC3339,
    parse4_natPad y (by omega), parse2_natPad mo (by omega), parse2_natPad dd (by omega),
    parse2_natPad hh (by omega), parse2_natPad mi (by omega), parse2_natPad ss (by omega),
    expectCh_cons, Option.some_bind]
  rw [htz, parseFrac_main ns h9 x xs hx]
  simp only [Option.some_bind]
  rw [← htz, parseTz_tzPart off h10]
  simp only [Option.some_bind]
  rw [if_pos ⟨trivial, h2, h3, h4, h5, h6, h7, h8⟩]

theorem decLF_timestamp (acc : ToolCallLog) (t : GoTime) (ht : t.valid) :
    decodeLogField acc "timestamp" (Json.str (String.mk (fmtRFC3339 t))) =
      some { acc with timestamp := t } := by
  delta decodeLogField
  rw [if_pos (by decide)]
  dsimp only
  rw [parseRFC3339_fmt t ht]
  rfl

theorem decLF_model (acc : ToolCallLog) (s : String) :
    decodeLogField acc "model" (Json.str s) = some { acc with model := s } := by
  delta decodeLogField
  rw [if_neg (by decide), if_pos (by decide)]

theorem decLF_toolName (acc : ToolCallLog) (s : String) :
    decodeLogField acc "tool_name" (Json.str s) = some { acc with toolName := s } := by
  delta decodeLogField
  rw [if_neg (by decide), if_neg (by decide), if_pos (by decide)]

theorem decLF_arguments (acc : ToolCallLog) (s : String) :
    decodeLogField acc "arguments" (Json.str s) = some { acc with arguments := s } := by
  delta decodeLogField
  rw [if_neg (by decide), if_neg (by decide), if_neg (by decide), if_pos (by decide)]

theorem decLF_status (acc : ToolCallLog) (s : String) :
    decodeLogField acc "status" (Json.str s) = some { acc with status := s } := by
  delta decodeLogField
  rw [if_neg (by decide), if_neg (by decide), if_neg (by decide), if_neg (by decide),
    if_pos (by decide)]

theorem decLF_message (acc : ToolCallLog) (s : String) :
    decodeLogField acc "message" (Json.str s) = some { acc with message := s } := by
  delta decodeLogField
  rw [if_neg (by decide), if_neg (by decide), if_neg (by decide), if_neg (by decide),
    if_neg (by decide), if_pos (by decide)]

theorem decLF_output (acc : ToolCallLog) (s : String) :
    decodeLogField acc "output" (Json.str s) = some { acc with output := s } := by
  delta decodeLogField
  rw [if_neg (by decide), if_neg (by decide), if_neg (by decide), if_neg (by decide),
    if_neg (by decide), if_neg (by decide), if_pos (by decide)]

theorem decLF_errorDetails (acc : ToolCallLog) (s : String) :
    decodeLogField acc "error_details" (Json.str s) = some { acc with errorDetails := s } := by
  delta decodeLogField
  rw [if_neg (by decide), if_neg (by decide), if_neg (by decide), if_neg (by decide),
    if_neg (by decide), if_neg (by decide), if_neg (by decide), if_pos (by decide)]

theorem decLF_toolsEnabled (acc : ToolCallLog) (b : Bool) :
    decodeLogField acc "tools_enabled" (Json.bool b) = some { acc with toolsEnabled := b } := by
  delta decodeLogField
  rw [if_neg (by decide), if_neg (by decide), if_neg (by decide), if_neg (by decide),
    if_neg (by decide), if_neg (by decide), if_neg (by decide), if_neg (by decide),
    if_pos (by decide)]

theorem decLF_rating (acc : ToolCallLog) (r : Int) :
    decodeLogField acc "rating" (Json.num (String.mk (intLitL r))) =
      some { acc with rating := r } := by
  delta decodeLogField
  rw [if_neg (by decide), if_neg (by decide), if_neg (by decide), if_neg (by decide),
    if_neg (by decide), if_neg (by decide), if_neg (by decide), if_neg (by decide),
    if_neg (by decide), if_pos (by decide)]
  dsimp only
  rw [parseIntLit_intLitL]
  rfl

theorem decodeLogFields_cons (acc a : ToolCallLog) (k : String) (v : Json)
    (rest : List (String × Json)) (h : decodeLogField acc k v = some a) :
    decodeLogFields acc ((k, v) :: rest) = decodeLogFields a rest := by
  rw [decodeLogFields, h]

theorem decodeToolCallLog_logFields (e : ToolCallLog) (ht : e.timestamp.valid) :
    decodeToolCallLog (Json.obj ((logFields e).map (fun kv => (kv.1, kv.2.toJson)))) =
      some e := by
  obtain ⟨ts, mdl, tn, args, st, msg, out, err, ten, rat⟩ := e
  dsimp only at ht
  rw [decodeToolCallLog]
  by_cases hout : out = ""
  · subst hout
    by_cases herr : err = ""
    · subst herr
      by_cases hrat : rat = 0
      · subst hrat
        simp only [logFields]
        simp only [if_true]
        simp only [List.map_append, List.map_cons, List.map_nil, JScalar.toJson,
          List.cons_append, List.nil_append, List.append_nil]
        rw [decodeLogFields_cons _ _ _ _ _ (decLF_timestamp _ ts ht),
          decodeLogFields_cons _ _ _ _ _ (decLF_model _ mdl),
          decodeLogFields_cons _ _ _ _ _ (decLF_toolName _ tn),
          decodeLogFields_cons _ _ _ _ _ (decLF_arguments _ args),
          decodeLogFields_cons _ _ _ _ _ (decLF_status _ st),
          decodeLogFields_cons _ _ _ _ _ (decLF_message _ msg),
          decodeLogFields_cons _ _ _ _ _ (decLF_toolsEnabled _ ten)]
        rfl
      · simp only [logFields]
        simp only [if_true]
        rw [if_neg hrat]
        simp only [List.map_append, List.map_cons, List.map_nil, JScalar.toJson,
          List.cons_append, List.nil_append, List.append_nil]
        rw [decodeLogFields_cons _ _ _ _ _ (decLF_timestamp _ ts ht),
          decodeLogFields_cons _ _ _ _ _ (decLF_model _ mdl),
          decodeLogFields_cons _ _ _ _ _ (decLF_toolName _ tn),
          decodeLogFields_cons _ _ _ _ _ (decLF_arguments _ args),
          decodeLogFields_cons _ _ _ _ _ (decLF_status _ st),
          decodeLogFields_cons _ _ _ _ _ (decLF_message _ msg),
          decodeLogFields_cons _ _ _ _ _ (decLF_toolsEnabled _ ten),
          decodeLogFields_cons _ _ _ _ _ (decLF_rating _ rat)]
        rfl
    · by_cases hrat : rat = 0
      · subst hrat
        simp only [logFields]
        simp only [if_true]
        rw [if_neg herr]
        simp only [List.map_append, List.map_cons, List.map_nil, JScalar.toJson,
          List.cons_append, List.nil_append, List.append_nil]
        rw [decodeLogFields_cons _ _ _ _ _ (decLF_timestamp _ ts ht),
          decodeLogFields_cons _ _ _ _ _ (decLF_model _ mdl),
          decodeLogFields_cons _ _ _ _ _ (decLF_toolName _ tn),
          decodeLogFields_cons _ _ _ _ _ (decLF_arguments _ args),
          decodeLogFields_cons _ _ _ _ _ (decLF_status _ st),
          decodeLogFields_cons _ _ _ _ _ (decLF_message _ msg),
          decodeLogFields_cons _ _ _ _ _ (decLF_errorDetails _ err),
          decodeLogFields_cons _ _ _ _ _ (decLF_toolsEnabled _ ten)]
        rfl
      · simp only [logFields]
        simp only [if_true]
        rw [if_neg herr, if_neg hrat]
        simp only [List.map_append, List.map_cons, List.map_nil, JScalar.toJson,
          List.cons_append, List.nil_append, List.append_nil]
        rw [decodeLogFields_cons _ _ _ _ _ (decLF_timestamp _ ts ht),
          decodeLogFields_cons _ _ _ _ _ (decLF_model _ mdl),
          decodeLogFields_cons _ _ _ _ _ (decLF_toolName _ tn),
          decodeLogFields_cons _ _ _ _ _ (decLF_arguments _ args),
          decodeLogFields_cons _ _ _ _ _ (decLF_status _ st),
          decodeLogFields_cons _ _ _ _ _ (decLF_message _ msg),
          decodeLogFields_cons _ _ _ _ _ (decLF_errorDetails _ err),
          decodeLogFields_cons _ _ _ _ _ (decLF_toolsEnabled _ ten),
          decodeLogFields_cons _ _ _ _ _ (decLF_rating _ rat)]
        rfl
  · by_cases herr : err = ""
    · subst herr
      by_cases hrat : rat = 0
      · subst hrat
        simp only [logFields]
        simp only [if_true]
        rw [if_neg hout]
        simp only [List.map_append, List.map_cons, List.map_nil, JScalar.toJson,
          List.cons_append, List.nil_append, List.append_nil]
        rw [decodeLogFields_cons _ _ _ _ _ (decLF_timestamp _ ts ht),
          decodeLogFields_cons _ _ _ _ _ (decLF_model _ mdl),
          decodeLogFields_cons _ _ _ _ _ (decLF_toolName _ tn),
          decodeLogFields_cons _ _ _ _ _ (decLF_arguments _ args),
          decodeLogFields_cons _ _ _ _ _ (decLF_status _ st),
          decodeLogFields_cons _ _ _ _ _ (decLF_message _ msg),
          decodeLogFields_cons _ _ _ _ _ (decLF_output _ out),
          decodeLogFields_cons _ _ _ _ _ (decLF_toolsEnabled _ ten)]
        rfl
      · simp only [logFields]
        simp only [if_true]
        rw [if_neg hout, if_neg hrat]
        simp only [List.map_append, List.map_cons, List.map_nil, JScalar.toJson,
          List.cons_append, List.nil_append, List.append_nil]
        rw [decodeLogFields_cons _ _ _ _ _ (decLF_timestamp _ ts ht),
          decodeLogFields_cons _ _ _ _ _ (decLF_model _ mdl),
          decodeLogFields_cons _ _ _ _ _ (decLF_toolName _ tn),
          decodeLogFields_cons _ _ _ _ _ (decLF_arguments _ args),
          decodeLogFields_cons _ _ _ _ _ (decLF_status _ st),
          decodeLogFields_cons _ _ _ _ _ (decLF_message _ msg),
          decodeLogFields_cons _ _ _ _ _ (decLF_output _ out),
          decodeLogFields_cons _ _ _ _ _ (decLF_toolsEnabled _ ten),
          decodeLogFields_cons _ _ _ _ _ (decLF_rating _ rat)]
        rfl
    · by_cases hrat : rat = 0
      · subst hrat
        simp only [logFields]
        simp only [if_true]
        rw [if_neg hout, if_neg herr]
        simp only [List.map_append, List.map_cons, List.map_nil, JScalar.toJson,
          List.cons_append, List.nil_append, List.append_nil]
        rw [decodeLogFields_cons _ _ _ _ _ (decLF_timestamp _ ts ht),
          decodeLogFields_cons _ _ _ _ _ (decLF_model _ mdl),
          decodeLogFields_cons _ _ _ _ _ (decLF_toolName _ tn),
          decodeLogFields_cons _ _ _ _ _ (decLF_arguments _ args),
          decodeLogFields_cons _ _ _ _ _ (decLF_status _ st),
          decodeLogFields_cons _ _ _ _ _ (decLF_message _ msg),
          decodeLogFields_cons _ _ _ _ _ (decLF_output _ out),
          decodeLogFields_cons _ _ _ _ _ (decLF_errorDetails _ err),
          decodeLogFields_cons _ _ _ _ _ (decLF_toolsEnabled _ ten)]
        rfl
      · simp only [logFields]
        rw [if_neg hout, if_neg herr, if_neg hrat]
        simp only [List.map_append, List.map_cons, List.map_nil, JScalar.toJson,
          List.cons_append, List.nil_append, List.append_nil]
        rw [decodeLogFields_cons _ _ _ _ _ (decLF_timestamp _ ts ht),
          decodeLogFields_cons _ _ _ _ _ (decLF_model _ mdl),
          decodeLogFields_cons _ _ _ _ _ (decLF_toolName _ tn),
          decodeLogFields_cons _ _ _ _ _ (decLF_arguments _ args),
          decodeLogFields_cons _ _ _ _ _ (decLF_status _ st),
          decodeLogFields_cons _ _ _ _ _ (decLF_message _ msg),
          decodeLogFields_cons _ _ _ _ _ (decLF_output _ out),
          decodeLogFields_cons _ _ _ _ _ (decLF_errorDetails _ err),
          decodeLogFields_cons _ _ _ _ _ (decLF_toolsEnabled _ ten),
          decodeLogFields_cons _ _ _ _ _ (decLF_rating _ rat)]
        rfl

theorem unmarshal_marshal (e : ToolCallLog) (h : e.timestamp.valid) :
    unmarshalToolCallLog (marshalToolCallLog e) = some e := by
  rw [unmarshalToolCallLog, goParseJson_marshal, Option.some_bind]
  exact decodeToolCallLog_logFields e h

theorem splitOnCharL_no_sep (sep : Char) (l : List Char)
    (h : ∀ c ∈ l, (c == sep) = false) : splitOnCharL sep l = [l] := by
  induction l with
  | nil => rfl
  | cons c t ih =>
    rw [splitOnCharL, if_neg (by simp [h c (List.mem_cons_self c t)]),
      ih (fun x hx => h x (List.mem_cons_of_mem c hx))]

theorem splitOnCharL_append_sep (sep : Char) (l rest : List Char)
    (h : ∀ c ∈ l, (c == sep) = false) :
    splitOnCharL sep (l ++ sep :: rest) = l :: splitOnCharL sep rest := by
  induction l with
  | nil =>
    rw [List.nil_append, splitOnCharL, if_pos (by simp)]
  | cons c t ih =>
    rw [List.cons_append, splitOnCharL, if_neg (by simp [h c (List.mem_cons_self c t)]),
      ih (fun x hx => h x (List.mem_cons_of_mem c hx))]

theorem split_join (lines : List (List Char)) (x : List Char)
    (h : ∀ l ∈ x :: lines, ∀ c ∈ l, (c == '\n') = false) :
    splitOnCharL '\n' (joinSepL '\n' (x :: lines)) = x :: lines := by
  induction lines generalizing x with
  | nil => exact splitOnCharL_no_sep '\n' x (h x (List.mem_cons_self x []))
  | cons y ys ih =>
    rw [joinSepL, splitOnCharL_append_sep '\n' x _ (h x (List.mem_cons_self x _)),
      ih y (fun l hl => h l (List.mem_cons_of_mem x hl))]

theorem hexCh_ne_nl (n : Nat) (h : n < 16) : (hexCh n == '\n') = false := by
  interval_cases n <;> decide

theorem quoteCharL_ne_nl (c d : Char) (hd : d ∈ quoteCharL c) : (d == '\n') = false := by
  rw [quoteCharL] at hd
  split_ifs at hd with h1 h2 h3 h4 h5 h6 h7 h8
  · simp only [List.mem_cons, List.not_mem_nil, or_false] at hd
    rcases hd with rfl | rfl <;> decide
  · simp only [List.mem_cons, List.not_mem_nil, or_false] at hd
    rcases hd with rfl | rfl <;> decide
  · simp only [List.mem_cons, List.not_mem_nil, or_false] at hd
    rcases hd with rfl | rfl <;> decide
  · simp only [List.mem_cons, List.not_mem_nil, or_false] at hd
    rcases hd with rfl | rfl <;> decide
  · simp only [List.mem_cons, List.not_mem_nil, or_false] at hd
    rcases hd with rfl | rfl <;> decide
  · simp only [List.mem_cons, List.not_mem_nil, or_false] at hd
    have hb : c.toNat < 256 := by
      rcases h6 with h | h | h | h
      · omega
      · obtain rfl := eq_of_beq h; decide
      · obtain rfl := eq_of_beq h; decide
      · obtain rfl := eq_of_beq h; decide
    rcases hd with rfl | rfl | rfl | rfl | rfl | rfl
    · decide
    · decide
    · decide
    · decide
    · exact hexCh_ne_nl _ (by omega)
    · exact hexCh_ne_nl _ (by omega)
  · simp only [List.mem_cons, List.not_mem_nil, or_false] at hd
    rcases hd with rfl | rfl | rfl | rfl | rfl | rfl <;> decide
  · simp only [List.mem_cons, List.not_mem_nil, or_false] at hd
    rcases hd with rfl | rfl | rfl | rfl | rfl | rfl <;> decide
  · rw [List.mem_singleton] at hd
    subst hd
    exact Bool.eq_false_iff.mpr h3

theorem quoteStrL_ne_nl (s : List Char) (d : Char) (hd : d ∈ quoteStrL s) :
    (d == '\n') = false := by
  rw [quoteStrL] at hd
  rcases List.mem_cons.mp hd with rfl | hd2
  · decide
  rcases List.mem_append.mp hd2 with h | h
  · rw [quoteBodyL] at h
    rcases List.mem_flatten.mp h with ⟨l, hl, hdl⟩
    rcases List.mem_map.mp hl with ⟨c, _, rfl⟩
    exact quoteCharL_ne_nl c d hdl
  · rw [List.mem_singleton] at h
    subst h
    decide

theorem intLitL_ne_nl (r : Int) (d : Char) (hd : d ∈ intLitL r) : (d == '\n') = false := by
  have hdig := (natStrL_ok r.natAbs).2.1
  have hdcase : ∀ x ∈ natStrL r.natAbs, (x == '\n') = false := fun x hx =>
    Bool.eq_false_iff.mpr (fun hb =>
      isDigitCh_ne x '\n' (hdig x hx) (by decide) (eq_of_beq hb))
  rw [intLitL] at hd
  split_ifs at hd
  · rcases List.mem_cons.mp hd with rfl | hd2
    · decide
    · exact hdcase d hd2
  · exact hdcase d hd

theorem logFields_shape (e : ToolCallLog) :
    ∀ kv ∈ logFields e, (∃ s, kv.2 = JScalar.str s) ∨ (∃ b, kv.2 = JScalar.bool b) ∨
      ∃ r, kv.2 = JScalar.num (intLitL r) := by
  rw [logFields]
  refine List.forall_mem_append.mpr ⟨List.forall_mem_append.mpr
    ⟨List.forall_mem_append.mpr ⟨List.forall_mem_append.mpr ⟨?_, ?_⟩, ?_⟩, ?_⟩, ?_⟩
  · intro kv hm
    simp only [List.mem_cons, List.not_mem_nil, or_false] at hm
    rcases hm with rfl | rfl | rfl | rfl | rfl | rfl <;> exact Or.inl ⟨_, rfl⟩
  · intro kv hm
    split_ifs at hm
    · simp at hm
    · rw [List.mem_singleton] at hm; subst hm; exact Or.inl ⟨_, rfl⟩
  · intro kv hm
    split_ifs at hm
    · simp at hm
    · rw [List.mem_singleton] at hm; subst hm; exact Or.inl ⟨_, rfl⟩
  · intro kv hm
    rw [List.mem_singleton] at hm; subst hm; exact Or.inr (Or.inl ⟨_, rfl⟩)
  · intro kv hm
    split_ifs at hm
    · simp at hm
    · rw [List.mem_singleton] at hm; subst hm; exact Or.inr (Or.inr ⟨_, rfl⟩)

theorem mem_joinSepL (sep : Char) (ls : List (List Char)) (d : Char)
    (hd : d ∈ joinSepL sep ls) : d = sep ∨ ∃ l ∈ ls, d ∈ l := by
  induction ls with
  | nil => simp [joinSepL] at hd
  | cons x xs ih =>
    cases xs with
    | nil => exact Or.inr ⟨x, List.mem_cons_self x [], hd⟩
    | cons y ys =>
      rw [joinSepL] at hd
      rcases List.mem_append.mp hd with h | h
      · exact Or.inr ⟨x, List.mem_cons_self x _, h⟩
      · rcases List.mem_cons.mp h with rfl | h2
        · exact Or.inl rfl
        · rcases ih h2 with h3 | ⟨l, hl, hdl⟩
          · exact Or.inl h3
          · exact Or.inr ⟨l, List.mem_cons_of_mem x hl, hdl⟩

theorem marshal_ne_nl (e : ToolCallLog) :
    ∀ d ∈ (marshalToolCallLog e).data, (d == '\n') = false := by
  intro d hd
  rw [show (marshalToolCallLog e).data =
    '\x7b' :: (encodeMembers (logFields e) ++ ['\x7d']) from rfl] at hd
  rcases List.mem_cons.mp hd with rfl | hd2
  · decide
  rcases List.mem_append.mp hd2 with h | h
  · rw [encodeMembers] at h
    rcases mem_joinSepL ',' _ d h with rfl | ⟨l, hl, hdl⟩
    · decide
    rcases List.mem_map.mp hl with ⟨kv, hkv, rfl⟩
    rcases List.mem_append.mp hdl with h2 | h2
    · exact quoteStrL_ne_nl _ d h2
    rcases List.mem_cons.mp h2 with rfl | h3
    · decide
    rcases logFields_shape e kv hkv with ⟨s, hs⟩ | ⟨b, hb⟩ | ⟨r, hr⟩
    · rw [hs] at h3
      exact quoteStrL_ne_nl s.data d h3
    · rw [hb] at h3
      cases b
      · simp only [encodeScalar, List.mem_cons, List.not_mem_nil, or_false] at h3
        rcases h3 with rfl | rfl | rfl | rfl | rfl <;> decide
      · simp only [encodeScalar, List.mem_cons, List.not_mem_nil, or_false] at h3
        rcases h3 with rfl | rfl | rfl | rfl <;> decide
    · rw [hr] at h3
      exact intLitL_ne_nl r d h3
  · rw [List.mem_singleton] at h
    subst h
    decide

theorem joinSepL_wrap (sep : Char) (x : List Char) (xs : List (List Char))
    (h : ∀ l ∈ x :: xs, ∃ m, l = '\x7b' :: (m ++ ['\x7d'])) :
    ∃ m, joinSepL sep (x :: xs) = '\x7b' :: (m ++ ['\x7d']) := by
  induction xs generalizing x with
  | nil =>
    obtain ⟨m, hm⟩ := h x (List.mem_cons_self x [])
    exact ⟨m, by rw [show joinSepL sep [x] = x from rfl, hm]⟩
  | cons y ys ih =>
    obtain ⟨mx, hx⟩ := h x (List.mem_cons_self x _)
    obtain ⟨m', hm'⟩ := ih y (fun l hl => h l (List.mem_cons_of_mem x hl))
    refine ⟨(mx ++ ['\x7d']) ++ sep :: '\x7b' :: m', ?_⟩
    rw [joinSepL, hx, hm']
    simp [List.append_assoc]

theorem trimSpaceL_wrap_self (m : List Char) :
    trimSpaceL ('\x7b' :: (m ++ ['\x7d'])) = '\x7b' :: (m ++ ['\x7d']) := by
  rw [trimSpaceL, List.dropWhile_cons, if_neg (by decide)]
  have h2 : ('\x7b' :: (m ++ ['\x7d'])).reverse = '\x7d' :: (m.reverse ++ ['\x7b']) := by
    simp
  rw [h2, List.dropWhile_cons, if_neg (by decide), ← h2, List.reverse_reverse]

theorem trimSpaceL_wrap_nl (m : List Char) :
    trimSpaceL (('\x7b' :: (m ++ ['\x7d'])) ++ ['\n']) = '\x7b' :: (m ++ ['\x7d']) := by
  rw [trimSpaceL, List.cons_append, List.dropWhile_cons, if_neg (by decide)]
  have h2 : ('\x7b' :: ((m ++ ['\x7d']) ++ ['\n'])).reverse
      = '\n' :: ('\x7d' :: (m.reverse ++ ['\x7b'])) := by simp
  rw [h2, List.dropWhile_cons, if_pos (by decide), List.dropWhile_cons, if_neg (by decide)]
  simp

theorem parseLogLines_filter (logs : List ToolCallLog)
    (hv : ∀ x ∈ logs, x.timestamp.valid) :
    (logs.map (fun e => (marshalToolCallLog e).data)).filterMap
      (fun l => if trimSpaceL l == [] then none else unmarshalToolCallLog (String.mk l))
      = logs := by
  induction logs with
  | nil => rfl
  | cons e t ih =>
    rw [List.map_cons, List.filterMap_cons]
    have hcond : (trimSpaceL ((marshalToolCallLog e).data) == []) = false := by
      rw [show (marshalToolCallLog e).data =
        '\x7b' :: (encodeMembers (logFields e) ++ ['\x7d']) from rfl, trimSpaceL_wrap_self]
      rfl
    have happ : (if (trimSpaceL (marshalToolCallLog e).data == []) = true then
        (none : Option ToolCallLog)
      else unmarshalToolCallLog (String.mk (marshalToolCallLog e).data)) = some e := by
      rw [hcond, if_neg (by simp),
        show String.mk ((marshalToolCallLog e).data) = marshalToolCallLog e from rfl]
      exact unmarshal_marshal e (hv e (List.mem_cons_self e t))
    rw [happ]
    dsimp only
    rw [ih (fun x hx => hv x (List.mem_cons_of_mem e hx))]

theorem parseLogLines_writeLogFile (logs : List ToolCallLog) (hne : logs ≠ [])
    (hv : ∀ x ∈ logs, x.timestamp.valid) :
    parseLogLines (writeLogFile logs) = logs := by
  obtain ⟨e0, rest, rfl⟩ : ∃ e0 rest, logs = e0 :: rest := by
    cases logs with
    | nil => exact absurd rfl hne
    | cons a b => exact ⟨a, b, rfl⟩
  rw [parseLogLines, writeLogFile,
    show (String.mk (joinSepL '\n'
        ((e0 :: rest).map (fun e => (marshalToolCallLog e).data)) ++ ['\n'])).data
      = joinSepL '\n' ((e0 :: rest).map (fun e => (marshalToolCallLog e).data)) ++ ['\n']
      from rfl,
    List.map_cons]
  have hshape : ∀ l ∈ (marshalToolCallLog e0).data ::
      rest.map (fun e => (marshalToolCallLog e).data), ∃ m, l = '\x7b' :: (m ++ ['\x7d']) := by
    intro l hl
    rcases List.mem_cons.mp hl with rfl | hl2
    · exact ⟨encodeMembers (logFields e0), rfl⟩
    · rcases List.mem_map.mp hl2 with ⟨e, _, rfl⟩
      exact ⟨encodeMembers (logFields e), rfl⟩
  have hnonl : ∀ l ∈ (marshalToolCallLog e0).data ::
      rest.map (fun e => (marshalToolCallLog e).data), ∀ c ∈ l, (c == '\n') = false := by
    intro l hl
    rcases List.mem_cons.mp hl with rfl | hl2
    · exact marshal_ne_nl e0
    · rcases List.mem_map.mp hl2 with ⟨e, _, rfl⟩
      exact marshal_ne_nl e
  obtain ⟨M, hM⟩ := joinSepL_wrap '\n' _ _ hshape
  rw [hM, trimSpaceL_wrap_nl, ← hM, split_join _ _ hnonl]
  have hfin := parseLogLines_filter (e0 :: rest) hv
  simp only [List.map_cons] at hfin
  exact hfin

/-- C8: serializing a `ToolCallLog` entry to its JSON line form and
re-parsing that line yields the entry back, field for field (for every
entry whose timestamp lies in the ranges `time.Time.MarshalJSON` emits);
consequently a full write-and-readback cycle of the log file returns
exactly the entries that were written, losing and corrupting none. -/
theorem C8_log_entry_json_round_trip (e : ToolCallLog) (h : e.timestamp.valid) :
    unmarshalToolCallLog (marshalToolCallLog e) = some e ∧
    ∀ logs : List ToolCallLog, logs ≠ [] → (∀ x ∈ logs, x.timestamp.valid) →
      parseLogLines (writeLogFile logs) = logs :=
  ⟨unmarshal_marshal e h, fun logs hne hv => parseLogLines_writeLogFile logs hne hv⟩

theorem C8_witness :
    unmarshalToolCallLog (marshalToolCallLog zeroToolCallLog) = some zeroToolCallLog ∧
    parseLogLines (writeLogFile [zeroToolCallLog]) = [zeroToolCallLog] := by
  have h := C8_log_entry_json_round_trip zeroToolCallLog (by decide)
  refine ⟨h.1, h.2 [zeroToolCallLog] (by simp) ?_⟩
  intro x hx
  rw [List.mem_singleton] at hx
  subst hx
  decide

/-- C6: when the existing file reads back as exactly 1000 well-formed
entries (malformed lines having been dropped by the readback),
`logToolCall` rewrites the whole file as exactly the oldest-evicted list:
the remaining 999 prior entries followed by the new entry at the tail,
1000 entries in all, and that is what a subsequent readback returns. -/
theorem C6_log_rotation_cap_evicts_oldest (data : String) (entries : List ToolCallLog)
    (e : ToolCallLog) (hparse : parseLogLines data = entries)
    (hlen : entries.length = 1000) (hv : ∀ x ∈ entries, x.timestamp.valid)
    (he : e.timestamp.valid) :
    logToolCall (some data) e = writeLogFile (entries.drop 1 ++ [e]) ∧
    parseLogLines (logToolCall (some data) e) = entries.drop 1 ++ [e] ∧
    (entries.drop 1 ++ [e]).length = 1000 := by
  have hwrite : logToolCall (some data) e = writeLogFile (entries.drop 1 ++ [e]) := by
    rw [logToolCall]
    rw [hparse]
    have hlen2 : (entries ++ [e]).length = 1001 := by simp [hlen]
    rw [hlen2, if_pos (by decide), show (1001 : Nat) - maxLogEntries = 1 from rfl]
    have hdrop : (entries ++ [e]).drop 1 = entries.drop 1 ++ [e] := by
      cases entries with
      | nil => simp at hlen
      | cons a t => rfl
    rw [hdrop]
  have hv2 : ∀ x ∈ entries.drop 1 ++ [e], x.timestamp.valid := by
    intro x hx
    rcases List.mem_append.mp hx with hx1 | hx1
    · exact hv x ((List.drop_sublist 1 entries).subset hx1)
    · rw [List.mem_singleton] at hx1
      subst hx1
      exact he
  refine ⟨hwrite, ?_, ?_⟩
  · rw [hwrite]
    exact parseLogLines_writeLogFile _ (by simp) hv2
  · simp only [List.length_append, List.length_drop, List.length_singleton, hlen]

theorem C6_witness :
    parseLogLines (logToolCall (some (writeLogFile (List.replicate 1000 zeroToolCallLog)))
        zeroToolCallLog) =
      (List.replicate 1000 zeroToolCallLog).drop 1 ++ [zeroToolCallLog] ∧
    ((List.replicate 1000 zeroToolCallLog).drop 1 ++ [zeroToolCallLog]).length = 1000 := by
  have hv : ∀ x ∈ List.replicate 1000 zeroToolCallLog, x.timestamp.valid := by
    intro x hx
    rw [List.eq_of_mem_replicate hx]
    decide
  have hne : List.replicate 1000 zeroToolCallLog ≠ [] := by
    intro hnil
    have hle := congrArg List.length hnil
    rw [List.length_replicate, List.length_nil] at hle
    exact absurd hle (by decide)
  have h := C6_log_rotation_cap_evicts_oldest
    (writeLogFile (List.replicate 1000 zeroToolCallLog))
    (List.replicate 1000 zeroToolCallLog) zeroToolCallLog
    (parseLogLines_writeLogFile _ hne hv) (by rw [List.length_replicate]) hv (by decide)
  exact ⟨h.2.1, h.2.2⟩
